import Mathlib

/-!
Verification development for the light-odometer animation/format engine
(`src/core/odometer.ts`, `src/utils/utilities.ts`).

The engine is embedded shallowly over exact rational arithmetic: JavaScript
numbers are modelled as `ℚ`, strings as `List Char`, and the per-instance
mutable state as an explicit record threaded through pure state-transformer
functions.  Fallible operations (format parsing, the `BadFormat` projection
error) return `Option`/`Except`.  Constants that live in the repository's
`src/shared/settings.ts` (absent from the sources) are modelled from the
specification as explicit parameters, collected in the `Settings` structure.
-/

namespace Odo

/-- JS `Math.round`: rounds to the nearest integer, halves toward `+∞`. -/
def jsMathRound (q : ℚ) : ℤ := ⌊q + 1/2⌋

/-- Embedding of `truncate` from `src/utils/utilities.ts`: drops the fractional
part, i.e. `Math.ceil` for negative inputs and `Math.floor` otherwise. -/
def truncate (q : ℚ) : ℤ := if q < 0 then ⌈q⌉ else ⌊q⌋

/-- Embedding of `round` from `src/utils/utilities.ts`: for precision `0` it is
`Math.round`; otherwise it scales by `10^precision`, adds `0.5`, floors, and
scales back. -/
def round (q : ℚ) (precision : ℕ) : ℚ :=
  if precision = 0 then (jsMathRound q : ℚ)
  else (⌊q * 10 ^ precision + 1/2⌋ : ℚ) / 10 ^ precision

/-- JS remainder `a % b` on numbers: `a - b * truncate (a / b)`. -/
def jsRem (a b : ℚ) : ℚ := a - b * (truncate (a / b) : ℚ)

/-- The parsed format object (`FormatObject` in `src/shared/interfaces.ts`):
repeating grouping pattern, optional radix character, and precision. -/
structure FormatObject where
  repeating : List Char
  radix : Option Char := none
  precision : ℕ := 0
deriving Repr, DecidableEq

/-- Characters removed by `cleanValue`'s strip step, the regex
`[.,\s  ]` (dot, comma, ASCII whitespace, no-break space, narrow
no-break space). -/
def strippedChar (c : Char) : Bool :=
  c = '.' || c = ',' || c = ' ' || c = '\t' || c = '\n' || c = '\r' ||
  c = '\x0b' || c = '\x0c' || c = ' ' || c = ' '

/-- Decides whether `pat` is an initial segment of `s`. -/
def seqStartsWith : List Char → List Char → Bool
  | [], _ => true
  | _ :: _, [] => false
  | p :: ps, c :: cs => p = c && seqStartsWith ps cs

/-- JS `String.prototype.replace` with a string pattern: replaces only the
first occurrence of `pat` (leaves the string unchanged when absent). -/
def replaceFirstSeq (pat repl : List Char) : List Char → List Char
  | [] => if seqStartsWith pat [] then repl else []
  | c :: rest =>
    if seqStartsWith pat (c :: rest) then repl ++ (c :: rest).drop pat.length
    else c :: replaceFirstSeq pat repl rest

/-- Character is an ASCII decimal digit. -/
def isDigitChar (c : Char) : Bool := '0' ≤ c && c ≤ '9'

/-- Numeric value of an ASCII digit character. -/
def digitVal (c : Char) : ℕ := c.toNat - 48

/-- Splits off the maximal run of leading decimal digits. -/
def spanDigits : List Char → List ℕ × List Char
  | [] => ([], [])
  | c :: cs =>
    if isDigitChar c then
      let (ds, r) := spanDigits cs
      (digitVal c :: ds, r)
    else ([], c :: cs)

/-- Folds a big-endian digit list into a natural number. -/
def digitsToNat (ds : List ℕ) : ℕ := ds.foldl (fun a d => 10 * a + d) 0

/-- Model of the JS builtin `parseFloat` restricted to plain decimal notation:
skips leading whitespace, reads an optional sign, integer digits, and an
optional `.`-separated fractional part, ignoring any trailing junk; `none`
models the `NaN` result when no digit could be read.  (Exponent notation is
outside the inputs this engine produces and is not modelled.) -/
def jsParseFloat (s : List Char) : Option ℚ :=
  let s1 := s.dropWhile (fun c => c = ' ' || c = '\t' || c = '\n' || c = '\r')
  let signed : ℚ × List Char :=
    match s1 with
    | '-' :: r => (-1, r)
    | '+' :: r => (1, r)
    | r => (1, r)
  let (ip, r1) := spanDigits signed.2
  match r1 with
  | '.' :: r2 =>
    let (fp, _) := spanDigits r2
    if ip.isEmpty && fp.isEmpty then none
    else some (signed.1 * ((digitsToNat ip : ℚ) + (digitsToNat fp : ℚ) / 10 ^ fp.length))
  | _ => if ip.isEmpty then none else some (signed.1 * (digitsToNat ip : ℚ))

/-- The radix character `cleanValue` substitutes for: `this.format.radix ?? "."`. -/
def radixChar (fmt : FormatObject) : Char := fmt.radix.getD '.'

/-- The literal `"<radix>"` placeholder used by `cleanValue`. -/
def radixMarker : List Char := ['<', 'r', 'a', 'd', 'i', 'x', '>']

/-- The string pipeline of `cleanValue`: protect the first occurrence of the
radix symbol behind `"<radix>"`, strip separators, then restore a canonical
decimal point. -/
def cleanString (fmt : FormatObject) (s : List Char) : List Char :=
  let s1 := replaceFirstSeq [radixChar fmt] radixMarker s
  let s2 := s1.filter (fun c => !strippedChar c)
  replaceFirstSeq radixMarker ['.'] s2

/-- Embedding of `cleanValue` from `src/core/odometer.ts`: textual input is
cleaned and parsed (`parseFloat(val) || 0`), then every input is rounded at
the active precision. -/
def cleanValue (fmt : FormatObject) : List Char ⊕ ℚ → ℚ
  | .inl s => round ((jsParseFloat (cleanString fmt s)).getD 0) fmt.precision
  | .inr q => round q fmt.precision

/-- Animation mode selector (`"count" | "slide"`). -/
inductive AnimationMode
  | count
  | slide
deriving Repr, DecidableEq

/-- The per-instance options record (`LightOdometerOptions`), with the bound
element left out: the claims under verification never read it and `setOptions`
explicitly discards attempts to change it. -/
structure Options where
  id : Option ℕ := none
  value : Option (List Char ⊕ ℚ) := none
  format : Option (List Char) := none
  duration : Option ℚ := none
  framerate : Option ℚ := none
  countFramerate : Option ℚ := none
  animation : Option AnimationMode := none
  formatFunction : Option (ℚ → List Char) := none

/-- A heap of options records, used to model JS object identity for the
`getOptions` shallow-copy contract: addresses are list indices. -/
abbrev OptionsHeap := List Options

/-- Embedding of `getOptions`: `return { ...this.options }` allocates a fresh
record holding a shallow copy of the instance's options and returns its
address. -/
def getOptions (h : OptionsHeap) (optionsAddr : ℕ) : OptionsHeap × ℕ :=
  (h ++ [h.getD optionsAddr {}], h.length)

/-- Mutation of one top-level key of the record stored at `addr` (an arbitrary
field rewrite `f`). -/
def writeOptionsField (h : OptionsHeap) (addr : ℕ) (f : Options → Options) :
    OptionsHeap :=
  h.set addr (f (h.getD addr {}))

/-- Modelled from the spec: the constants of `src/shared/settings.ts`, which
is not among the provided sources.  §9 records the numeric defaults as
undocumented product constants, so they are carried as parameters of the
embedding; the field defaults below are representative values used only to
build concrete witnesses and counterexamples (the default grouping format is
the `"(,ddd)"` shape §8 uses).  `browser` models the `isBrowser()`
environment probe. -/
structure Settings where
  DIGIT_FORMAT : List Char := ['(', ',', 'd', 'd', 'd', ')']
  DURATION : ℚ := 2000
  FRAMES_PER_VALUE : ℚ := 2
  DIGIT_SPEEDBOOST : ℚ := 1/2
  FRAMERATE : ℚ := 30
  COUNT_FRAMERATE : ℚ := 20
  browser : Bool := true

/-- Consumes a maximal run of digit markers `d`. -/
def parseDigitMarkers : List Char → ℕ × List Char
  | 'd' :: r =>
    let (n, r') := parseDigitMarkers r
    (n + 1, r')
  | r => (0, r)

/-- Modelled from the spec: `FORMAT_PARSER` from `src/shared/settings.ts` is
not among the provided sources.  §4.1's grammar: an optional grouping group
`"(" separator-char "ddd" ")"`, then digit markers, then optionally `"."` and
one or more fractional digit markers.  The repeating pattern is the group's
interior followed by the free digit markers and must contain at least one
digit marker (§3); a fractional part contributes the radix character and the
precision (count of fractional markers). -/
def parseFormat (s : List Char) : Option FormatObject :=
  let headGroup : List Char × List Char :=
    match s with
    | '(' :: c :: 'd' :: 'd' :: 'd' :: ')' :: r => ([c, 'd', 'd', 'd'], r)
    | _ => ([], s)
  let (mid, rest2) := parseDigitMarkers headGroup.2
  let repeating := headGroup.1 ++ List.replicate mid 'd'
  match rest2 with
  | [] => if repeating.any (· = 'd') then some { repeating := repeating } else none
  | '.' :: fr =>
    let (p, rest3) := parseDigitMarkers fr
    if rest3 = [] ∧ p ≠ 0 ∧ repeating.any (· = 'd') then
      some { repeating := repeating, radix := some '.', precision := p }
    else none
  | _ => none

/-- The format string `resetFormat` actually parses:
`options.format ?? DIGIT_FORMAT`, with the empty string replaced by `"d"`
(`format = format || "d"`). -/
def effectiveFormatStr (cfg : Settings) (opts : Options) : List Char :=
  let f := opts.format.getD cfg.DIGIT_FORMAT
  if f = [] then ['d'] else f

/-- The per-instance state: `InstanceState` of §3 together with the auxiliary
flags and derived timing fields the source mutates. -/
structure InstState where
  value : ℚ := 0
  format : FormatObject := { repeating := [] }
  options : Options := {}
  isAnimating : Bool := false
  destroyed : Bool := false
  transitionEndBound : Bool := false
  watchMutations : Bool := false
  msPerFrame : ℚ := 0
  countMsPerFrame : ℚ := 0
  maxValues : ℤ := 0

/-- Embedding of `resetFormat` as a state transformer: the source parses the
effective format string and throws `"Unparsable digit format"` before any
assignment, so `error` leaves the state untouched and `ok` commits only the
parsed `format` field. -/
def resetFormat (cfg : Settings) (s : InstState) : Except Unit InstState :=
  match parseFormat (effectiveFormatStr cfg s.options) with
  | some fo => .ok { s with format := fo }
  | none => .error ()

/-- Decimal digit count of a natural number with explicit structural fuel
(`0` has zero digits); the fuel `n` itself always suffices. -/
def digitsLen : ℕ → ℕ → ℕ
  | 0, _ => 0
  | f + 1, n => if n = 0 then 0 else digitsLen f (n / 10) + 1

/-- Number of decimal digits of a natural number. -/
def numDigits (n : ℕ) : ℕ := digitsLen n n

/-- Embedding of `getDigitCount`, idealizing the source's
`Math.ceil(Math.log(max + 1) / Math.log(10))` over exact arithmetic: the
least `d` with `max(|a|,|b|) + 1 ≤ 10^d`, which is the decimal digit count
of `⌈max(|a|,|b|)⌉`. -/
def getDigitCount (a b : ℚ) : ℕ := numDigits (⌈max |a| |b|⌉).toNat

/-- JS remainder `%` on integer-valued numbers:
`a - b * truncate (a / b)`. -/
def jsRemInt (a b : ℤ) : ℤ := a - b * truncate ((a : ℚ) / (b : ℚ))

/-- Embedding of `createRange`: the integer range walked from `start` toward
`stop` (the source's `end`), ascending iff `start < stop`, of length
`|stop - start|` plus one when inclusive. -/
def createRange (start stop : ℤ) (inclusive : Bool) : List ℤ :=
  let len := (stop - start).natAbs + (if inclusive then 1 else 0)
  (List.range len).map
    (fun i : ℕ => if start < stop then start + (i : ℤ) else start - (i : ℤ))

/-- The subsampling loop of `animateSlide`: starting from `cur`, push
`Math.round(cur)` and advance by `incr` while `cur` is strictly on the
`start` side of `stop` (ascending when `dist > 0`, descending when
`dist < 0`).  The loop is expressed with explicit fuel;
`slideWalk_eq_map` shows the fuel passed by `columnFrames` is enough for
the walk to run to its natural stopping point. -/
def slideWalk (stop incr dist : ℚ) : ℕ → ℚ → List ℤ
  | 0, _ => []
  | f + 1, cur =>
    if (dist > 0 ∧ cur < stop) ∨ (dist < 0 ∧ stop < cur) then
      jsMathRound cur :: slideWalk stop incr dist f (cur + incr)
    else []

/-- One column of `animateSlide` before the mod-10 reduction: a unit-step
inclusive range when `|dist| ≤ MAX_VALUES`, otherwise the subsampled walk at
increment `dist / (MAX_VALUES * (1 + boosted * DIGIT_SPEEDBOOST))`, with the
exact end value appended when the walk does not land on it. -/
def columnFrames (cfg : Settings) (maxValues : ℤ) (start stop : ℤ)
    (boosted : ℕ) : List ℤ :=
  let dist := stop - start
  if maxValues < |dist| then
    let denom : ℚ := (maxValues : ℚ) * (1 + (boosted : ℚ) * cfg.DIGIT_SPEEDBOOST)
    let frames := slideWalk (stop : ℚ) ((dist : ℚ) / denom) (dist : ℚ)
      (⌈denom⌉.toNat + 1) (start : ℚ)
    if frames.getLast? = some stop then frames else frames ++ [stop]
  else createRange start stop true

/-- The truncated leading value of column `i`:
`truncate(v / 10^(digitCount - i - 1))`. -/
def colStart (v : ℚ) (d i : ℕ) : ℤ := truncate (v / 10 ^ (d - i - 1))

/-- Whether a column with endpoints `s`, `e` takes the subsampling branch. -/
def subsampled (maxValues s e : ℤ) : Bool := maxValues < |e - s|

/-- The column loop of `animateSlide`, threading the `boosted` counter: each
column's frames are reduced to `Math.abs(frame % 10)`, and `boosted` is
incremented after a subsampled column. -/
def slideDigitsAux (cfg : Settings) (maxValues : ℤ) (oldV newV : ℚ) (d : ℕ) :
    List ℕ → ℕ → List (List ℕ)
  | [], _ => []
  | i :: is, boosted =>
    let s := colStart oldV d i
    let e := colStart newV d i
    let frames := columnFrames cfg maxValues s e boosted
    frames.map (fun v => (jsRemInt v 10).natAbs) ::
      slideDigitsAux cfg maxValues oldV newV d is
        (boosted + if subsampled maxValues s e then 1 else 0)

/-- The `boosted` counter seen by each column of `slideDigitsAux` (the number
of columns already subsampled before it). -/
def boostedCounts (maxValues : ℤ) (oldV newV : ℚ) (d : ℕ) :
    List ℕ → ℕ → List ℕ
  | [], _ => []
  | i :: is, boosted =>
    boosted :: boostedCounts maxValues oldV newV d is
      (boosted + if subsampled maxValues (colStart oldV d i) (colStart newV d i)
        then 1 else 0)

/-- The `digits` array computed by `animateSlide` (lines 752–796) for already
scaled old/new values: one frame list per decimal column, most significant
first. -/
def slidePlan (cfg : Settings) (maxValues : ℤ) (oldV newV : ℚ) :
    List (List ℕ) :=
  let d := getDigitCount oldV newV
  slideDigitsAux cfg maxValues oldV newV d (List.range d) 0

/-- The big-endian digit string (length `d`, leading zeros included) of a
natural number. -/
def digitsBE (m d : ℕ) : List ℕ :=
  (List.range d).map (fun i => m / 10 ^ (d - 1 - i) % 10)

end Odo

namespace Odo

/-- C6: the normalizer's rounding is round-half-up at every precision: it
equals `⌊v * 10^p + 1/2⌋ / 10^p` for every `p` (including `p = 0`, where the
source delegates to `Math.round`), and `cleanValue` applies exactly this
rounding at the active format precision to numeric input. -/
theorem round_half_up_at_every_precision (q : ℚ) (p : ℕ) (fmt : FormatObject)
    (v : ℚ) :
    round q p = (⌊q * 10 ^ p + 1/2⌋ : ℚ) / 10 ^ p ∧
    cleanValue fmt (.inr v) = round v fmt.precision := by
  refine ⟨?_, rfl⟩
  unfold round jsMathRound
  rcases eq_or_ne p 0 with hp | hp
  · subst hp; simp
  · rw [if_neg hp]

/-- C9: `cleanValue` on textual input never raises: when the cleaned string
fails to parse as a float, the `|| 0` fallback makes the result exactly `0`
(the subsequent rounding at the active precision fixes `0`). -/
theorem cleanValue_failed_parse_yields_zero (fmt : FormatObject)
    (s : List Char) (h : jsParseFloat (cleanString fmt s) = none) :
    cleanValue fmt (.inl s) = 0 := by
  simp only [cleanValue, h, Option.getD_none]
  unfold round jsMathRound
  rcases eq_or_ne fmt.precision 0 with hp | hp
  · rw [hp, if_pos rfl]
    norm_num
  · rw [if_neg hp]
    norm_num

/-- Witness for C9: the malformed input `"abc"` fails to parse and is
normalized to `0` under the default-like format. -/
theorem cleanValue_failed_parse_yields_zero_witness :
    jsParseFloat (cleanString { repeating := [',', 'd', 'd', 'd'] }
      ['a', 'b', 'c']) = none ∧
    cleanValue { repeating := [',', 'd', 'd', 'd'] } (.inl ['a', 'b', 'c']) = 0 := by
  refine ⟨by decide, ?_⟩
  exact cleanValue_failed_parse_yields_zero _ _ (by decide)

/-- C10: `getOptions` hands out an isolated shallow snapshot: it allocates a
fresh record, so mutating any top-level key of the returned record leaves the
instance's own options unchanged, and a second `getOptions` call copies the
untouched instance record. -/
theorem getOptions_snapshot_isolated (h : OptionsHeap) (a : ℕ)
    (ha : a < h.length) (f : Options → Options) :
    (writeOptionsField (getOptions h a).1 (getOptions h a).2 f).getD a {} =
      h.getD a {} ∧
    ((getOptions (writeOptionsField (getOptions h a).1 (getOptions h a).2 f) a).1).getD
      ((getOptions (writeOptionsField (getOptions h a).1 (getOptions h a).2 f) a).2) {} =
      h.getD a {} := by
  have hne : h.length ≠ a := (Nat.ne_of_lt ha).symm
  have hmut : (writeOptionsField (getOptions h a).1 (getOptions h a).2 f).getD a {} =
      h.getD a {} := by
    unfold writeOptionsField getOptions
    simp only [List.getD]
    rw [List.get?_set_ne _ _ hne, List.get?_append ha]
  refine ⟨hmut, ?_⟩
  unfold getOptions
  simp only [List.getD]
  rw [List.get?_concat_length]
  have hm2 := hmut
  unfold getOptions at hm2
  simpa [List.getD] using hm2

/-- Witness for C10: a concrete two-record heap; overwriting `duration` in the
snapshot does not leak into the instance record. -/
theorem getOptions_snapshot_isolated_witness :
    (0 : ℕ) < ([{ duration := some 100 }, {}] : OptionsHeap).length ∧
    (writeOptionsField
        (getOptions [{ duration := some 100 }, {}] 0).1
        (getOptions [{ duration := some 100 }, {}] 0).2
        (fun o => { o with duration := some 42 })).getD 0 {} =
      ([{ duration := some 100 }, {}] : OptionsHeap).getD 0 {} := by
  refine ⟨by decide, ?_⟩
  exact (getOptions_snapshot_isolated [{ duration := some 100 }, {}] 0
    (by decide) (fun o => { o with duration := some 42 })).1

end Odo

namespace Odo

/-- C8 counterexample: with the default grouping format modelled as
`"(,ddd)"`, an explicitly empty format string does not fall back to the
default spec: `resetFormat` succeeds but commits the minimal `"d"` spec,
which differs from the parse of the default format string. -/
theorem resetFormat_empty_falls_back_to_d_not_default :
    (resetFormat {} { options := { format := some [] } }).toOption.map
        InstState.format = some { repeating := ['d'] } ∧
    parseFormat ({} : Settings).DIGIT_FORMAT =
      some { repeating := [',', 'd', 'd', 'd'] } ∧
    ({ repeating := ['d'] } : FormatObject) ≠ { repeating := [',', 'd', 'd', 'd'] } := by
  refine ⟨rfl, by decide, by decide⟩

/-- C8 (amended): when the effective format string fails the grammar,
`resetFormat` raises synchronously with no instance state committed (a
successful call changes nothing but the `format` field); a missing format
string falls back to the configured default format string, while an empty
format string falls back to the minimal `"d"` spec (single digit marker, no
grouping), not to the default spec. -/
theorem resetFormat_error_commits_nothing (cfg : Settings) (s : InstState) :
    (parseFormat (effectiveFormatStr cfg s.options) = none →
      resetFormat cfg s = .error ()) ∧
    (∀ s', resetFormat cfg s = .ok s' → s' = { s with format := s'.format }) ∧
    (∀ D, s.options.format = none → cfg.DIGIT_FORMAT ≠ [] →
      parseFormat cfg.DIGIT_FORMAT = some D →
      resetFormat cfg s = .ok { s with format := D }) ∧
    (s.options.format = some [] →
      resetFormat cfg s = .ok { s with format := { repeating := ['d'] } }) := by
  refine ⟨?_, ?_, ?_, ?_⟩
  · intro h
    unfold resetFormat
    rw [h]
  · intro s' h
    unfold resetFormat at h
    rcases hp : parseFormat (effectiveFormatStr cfg s.options) with _ | fo
    · rw [hp] at h
      exact absurd h (by simp)
    · rw [hp] at h
      simp only [Except.ok.injEq] at h
      rw [← h]
  · intro D hmiss hne hD
    unfold resetFormat effectiveFormatStr
    rw [hmiss]
    simp only [Option.getD_none]
    rw [if_neg hne, hD]
  · intro hempty
    unfold resetFormat effectiveFormatStr
    rw [hempty]
    simp only [Option.getD_some, reduceIte]
    have hd : parseFormat ['d'] = some { repeating := ['d'] } := by decide
    rw [hd]

/-- Witness for C8: a concrete failing format string `"x("` raises with no
state committed, and the empty string commits the `"d"` spec. -/
theorem resetFormat_error_commits_nothing_witness :
    resetFormat {} { options := { format := some ['x', '('] } } = .error () ∧
    resetFormat {} { options := { format := some [] } } =
      .ok { options := { format := some [] },
            format := { repeating := ['d'] } } := by
  constructor
  · exact (resetFormat_error_commits_nothing {}
      { options := { format := some ['x', '('] } }).1 (by decide)
  · exact (resetFormat_error_commits_nothing {}
      { options := { format := some [] } }).2.2.2 rfl

end Odo

namespace Odo

lemma digitsLen_lt (f : ℕ) : ∀ n : ℕ, n ≤ f → n < 10 ^ digitsLen f n := by
  induction f with
  | zero =>
    intro n hn
    simp only [Nat.le_zero] at hn
    simp [hn, digitsLen]
  | succ f ih =>
    intro n hn
    rcases eq_or_ne n 0 with h0 | h0
    · simp [h0, digitsLen]
    · have hdiv : n / 10 ≤ f := by
        have := Nat.div_lt_self (Nat.pos_of_ne_zero h0) (by norm_num : (1:ℕ) < 10)
        omega
      have := ih (n / 10) hdiv
      simp only [digitsLen, h0, if_false, pow_succ]
      have h9 : n ≤ 10 * (n / 10) + 9 := by omega
      calc n ≤ 10 * (n / 10) + 9 := h9
        _ < 10 * (10 ^ digitsLen f (n / 10)) := by omega
        _ = 10 ^ digitsLen f (n / 10) * 10 := by ring

lemma numDigits_lt (n : ℕ) : n < 10 ^ numDigits n := digitsLen_lt n n le_rfl

lemma truncate_nonneg_eq_floor {q : ℚ} (h : 0 ≤ q) : truncate q = ⌊q⌋ := by
  unfold truncate
  rw [if_neg (not_lt.mpr h)]

lemma trunc_div_pow_cases (z : ℤ) (k : ℕ) :
    truncate ((z : ℚ) / 10 ^ k) = if z < 0 then -((z.natAbs / 10 ^ k : ℕ) : ℤ)
      else ((z.natAbs / 10 ^ k : ℕ) : ℤ) := by
  have hcast : (((10 ^ k : ℕ)) : ℚ) = (10 : ℚ) ^ k := by push_cast; ring
  have hdiv : ((z.natAbs / 10 ^ k : ℕ) : ℤ) = ((z.natAbs : ℕ) : ℤ) / ((10 ^ k : ℕ) : ℤ) :=
    Int.ofNat_div _ _
  rcases lt_or_le z 0 with hz | hz
  · rw [if_pos hz]
    have hzq : ((z.natAbs : ℕ) : ℚ) = -(z : ℚ) := by
      have h1 : ((z.natAbs : ℕ) : ℤ) = -z := by omega
      calc ((z.natAbs : ℕ) : ℚ) = (((z.natAbs : ℕ) : ℤ) : ℚ) :=
            (Int.cast_natCast z.natAbs).symm
        _ = ((-z : ℤ) : ℚ) := by rw [h1]
        _ = -(z : ℚ) := by push_cast; ring
    have hq : (z : ℚ) / 10 ^ k < 0 := by
      apply div_neg_of_neg_of_pos
      · exact_mod_cast hz
      · positivity
    unfold truncate
    rw [if_pos hq]
    have key : (z : ℚ) / 10 ^ k = -(((z.natAbs : ℕ) : ℚ) / (((10 ^ k : ℕ)) : ℚ)) := by
      rw [hzq, hcast]
      ring
    rw [key, Int.ceil_neg, Rat.floor_natCast_div_natCast, hdiv]
  · rw [if_neg (not_lt.mpr hz)]
    have hzq : ((z.natAbs : ℕ) : ℚ) = (z : ℚ) := by
      have h1 : ((z.natAbs : ℕ) : ℤ) = z := by omega
      calc ((z.natAbs : ℕ) : ℚ) = (((z.natAbs : ℕ) : ℤ) : ℚ) :=
            (Int.cast_natCast z.natAbs).symm
        _ = (z : ℚ) := by rw [h1]
    have hq : 0 ≤ (z : ℚ) / 10 ^ k := by
      apply div_nonneg
      · exact_mod_cast hz
      · positivity
    rw [truncate_nonneg_eq_floor hq]
    have key : (z : ℚ) / 10 ^ k = ((z.natAbs : ℕ) : ℚ) / (((10 ^ k : ℕ)) : ℚ) := by
      rw [hzq, hcast]
    rw [key, Rat.floor_natCast_div_natCast, hdiv]

lemma truncate_intCast (z : ℤ) : truncate (z : ℚ) = z := by
  have := trunc_div_pow_cases z 0
  simp only [pow_zero, div_one, Nat.div_one] at this
  rw [this]
  rcases lt_or_le z 0 with hz | hz
  · rw [if_pos hz]; omega
  · rw [if_neg (not_lt.mpr hz)]; omega

lemma jsRemInt_eq_trunc_pow (w : ℤ) :
    jsRemInt w 10 = w - 10 * truncate ((w : ℚ) / 10 ^ 1) := by
  unfold jsRemInt
  norm_num

lemma natAbs_jsRemInt_trunc (z : ℤ) (k : ℕ) :
    (jsRemInt (truncate ((z : ℚ) / 10 ^ k)) 10).natAbs = z.natAbs / 10 ^ k % 10 := by
  rw [trunc_div_pow_cases]
  set A : ℕ := z.natAbs / 10 ^ k with hA
  have hmod := Nat.div_add_mod A 10
  have hlt : A % 10 < 10 := Nat.mod_lt _ (by norm_num)
  rcases lt_or_le z 0 with hz | hz
  · rw [if_pos hz, jsRemInt_eq_trunc_pow, trunc_div_pow_cases]
    rcases eq_or_ne A 0 with h0 | h0
    · simp [h0]
    · have hAneg : -(A : ℤ) < 0 := by omega
      rw [if_pos hAneg]
      have hnatAbs : (-(A : ℤ)).natAbs = A := by omega
      rw [hnatAbs]
      omega
  · rw [if_neg (not_lt.mpr hz), jsRemInt_eq_trunc_pow, trunc_div_pow_cases]
    have hpos : ¬ ((A : ℤ) < 0) := by omega
    rw [if_neg hpos]
    have hnatAbs : ((A : ℤ)).natAbs = A := by omega
    rw [hnatAbs]
    omega

end Odo

namespace Odo

lemma jsMathRound_intCast (z : ℤ) : jsMathRound (z : ℚ) = z := by
  unfold jsMathRound
  rw [Int.floor_int_add]
  norm_num

lemma slideWalk_cond_iff (startQ D denom : ℚ) (h0 : 0 < denom) (hD : D ≠ 0)
    (k : ℕ) :
    ((D > 0 ∧ startQ + k * (D / denom) < startQ + D) ∨
      (D < 0 ∧ startQ + D < startQ + k * (D / denom))) ↔ (k : ℚ) < denom := by
  rcases lt_or_gt_of_ne hD with hneg | hpos
  · constructor
    · rintro (⟨h, _⟩ | ⟨_, h⟩)
      · exact absurd h (by linarith)
      · have h2 : D < (k : ℚ) * D / denom := by
          have : (k : ℚ) * (D / denom) = (k : ℚ) * D / denom := by ring
          linarith [this ▸ (by linarith : D < (k : ℚ) * (D / denom))]
        have h3 : denom * D < (k : ℚ) * D := by
          have := (lt_div_iff h0).mp h2
          linarith [this]
        exact (mul_lt_mul_right_of_neg hneg).mp h3
    · intro hk
      refine Or.inr ⟨hneg, ?_⟩
      have h3 : denom * D < (k : ℚ) * D := (mul_lt_mul_right_of_neg hneg).mpr hk
      have h2 : D < (k : ℚ) * D / denom := (lt_div_iff h0).mpr (by linarith)
      have : (k : ℚ) * (D / denom) = (k : ℚ) * D / denom := by ring
      linarith [this ▸ h2]
  · constructor
    · rintro (⟨_, h⟩ | ⟨h, _⟩)
      · have h2 : (k : ℚ) * D / denom < D := by
          have : (k : ℚ) * (D / denom) = (k : ℚ) * D / denom := by ring
          linarith [this ▸ (by linarith : (k : ℚ) * (D / denom) < D)]
        have h3 : (k : ℚ) * D < denom * D := by
          have := (div_lt_iff h0).mp h2
          linarith [this]
        exact (mul_lt_mul_right (by exact hpos)).mp (by linarith : (k : ℚ) * D < denom * D)
      · exact absurd h (by linarith)
    · intro hk
      refine Or.inl ⟨hpos, ?_⟩
      have h3 : (k : ℚ) * D < denom * D := by
        have := (mul_lt_mul_right hpos).mpr hk
        linarith [this]
      have h2 : (k : ℚ) * D / denom < D := (div_lt_iff h0).mpr (by linarith)
      have : (k : ℚ) * (D / denom) = (k : ℚ) * D / denom := by ring
      linarith [this ▸ h2]

lemma slideWalk_eq_map (startQ D denom : ℚ) (h0 : 0 < denom) (hD : D ≠ 0) :
    ∀ (f k : ℕ), ⌈denom⌉.toNat ≤ k + f →
      slideWalk (startQ + D) (D / denom) D f (startQ + k * (D / denom)) =
      (List.range (⌈denom⌉.toNat - k)).map
        (fun j => jsMathRound (startQ + ((k + j : ℕ) : ℚ) * (D / denom))) := by
  intro f
  induction f with
  | zero =>
    intro k hk
    rw [show ⌈denom⌉.toNat - k = 0 by omega]
    simp [slideWalk]
  | succ f ih =>
    intro k hk
    by_cases hklt : k < ⌈denom⌉.toNat
    · have hcpos : 0 < ⌈denom⌉ := Int.ceil_pos.mpr h0
      have hcond : (k : ℚ) < denom := by
        have h1 : (k : ℤ) < ⌈denom⌉ := by omega
        exact_mod_cast Int.lt_ceil.mp h1
      rw [slideWalk, if_pos ((slideWalk_cond_iff startQ D denom h0 hD k).mpr hcond)]
      have hnext : startQ + ↑k * (D / denom) + D / denom =
          startQ + ((k + 1 : ℕ) : ℚ) * (D / denom) := by
        push_cast
        ring
      rw [hnext, ih (k + 1) (by omega)]
      rw [show ⌈denom⌉.toNat - k = (⌈denom⌉.toNat - (k + 1)) + 1 by omega,
        List.range_succ_eq_map, List.map_cons, List.map_map]
      refine congrArg₂ List.cons (by norm_num) ?_
      apply List.map_congr_left
      intro j _
      simp only [Function.comp_apply]
      congr 2
      push_cast
      ring
    · have hge : denom ≤ (k : ℚ) := by
        have hcpos : 0 < ⌈denom⌉ := Int.ceil_pos.mpr h0
        have h1 : ⌈denom⌉ ≤ (k : ℤ) := by omega
        calc denom ≤ (⌈denom⌉ : ℚ) := Int.le_ceil denom
          _ ≤ (k : ℚ) := by exact_mod_cast h1
      rw [slideWalk,
        if_neg (by
          rw [slideWalk_cond_iff startQ D denom h0 hD k]
          exact not_lt.mpr hge),
        show ⌈denom⌉.toNat - k = 0 by omega]
      simp

end Odo

namespace Odo

lemma head_walkMap (N : ℕ) (hN : 1 ≤ N) (s : ℤ) (i : ℚ) :
    ((List.range N).map (fun j : ℕ => jsMathRound ((s : ℚ) + (j : ℚ) * i))).head? =
      some s := by
  rw [show N = (N - 1) + 1 by omega, List.range_succ_eq_map, List.map_cons]
  simp [jsMathRound_intCast]

lemma appendEnd_char {W : List ℤ} {s e : ℤ} {N : ℕ}
    (hWhead : W.head? = some s) (hlen : W.length = N) :
    (if W.getLast? = some e then W else W ++ [e]).head? = some s ∧
    (if W.getLast? = some e then W else W ++ [e]).getLast? = some e ∧
    (if W.getLast? = some e then W else W ++ [e]).length ≤ N + 1 := by
  by_cases hlast : W.getLast? = some e
  · rw [if_pos hlast]
    exact ⟨hWhead, hlast, by omega⟩
  · rw [if_neg hlast]
    refine ⟨?_, List.getLast?_concat _, ?_⟩
    · rw [List.head?_append, hWhead]
      rfl
    · simp [hlen]

lemma createRange_char (s e : ℤ) :
    (createRange s e true).head? = some s ∧
    (createRange s e true).getLast? = some e ∧
    (createRange s e true).length = (e - s).natAbs + 1 := by
  simp only [createRange, if_pos]
  refine ⟨?_, ?_, by simp⟩
  · rw [List.range_succ_eq_map, List.map_cons]
    simp
  · rw [List.range_succ, List.map_append, List.map_cons, List.map_nil,
      List.getLast?_concat]
    have hval : (if s < e then s + ((e - s).natAbs : ℤ)
        else s - ((e - s).natAbs : ℤ)) = e := by
      by_cases hse : s < e
      · rw [if_pos hse]; omega
      · rw [if_neg hse]; omega
    rw [hval]

lemma columnFrames_char (cfg : Settings) (maxValues s e : ℤ) (b : ℕ)
    (hmax : 1 ≤ maxValues) (hsb : 0 ≤ cfg.DIGIT_SPEEDBOOST) :
    (columnFrames cfg maxValues s e b).head? = some s ∧
    (columnFrames cfg maxValues s e b).getLast? = some e ∧
    (columnFrames cfg maxValues s e b).length ≤
      (⌈(maxValues : ℚ) * (1 + (b : ℚ) * cfg.DIGIT_SPEEDBOOST)⌉).toNat + 1 := by
  have hbsb : 0 ≤ (b : ℚ) * cfg.DIGIT_SPEEDBOOST := mul_nonneg (by positivity) hsb
  have hdpos : 0 < (maxValues : ℚ) * (1 + (b : ℚ) * cfg.DIGIT_SPEEDBOOST) := by
    apply mul_pos
    · exact_mod_cast lt_of_lt_of_le zero_lt_one hmax
    · linarith
  have hN1 : 1 ≤ (⌈(maxValues : ℚ) * (1 + (b : ℚ) * cfg.DIGIT_SPEEDBOOST)⌉).toNat := by
    have := Int.ceil_pos.mpr hdpos
    omega
  simp only [columnFrames]
  by_cases hcond : maxValues < |e - s|
  · rw [if_pos hcond]
    have hdist0 : e - s ≠ 0 := by
      intro h
      rw [h] at hcond
      simp at hcond
      omega
    have hD : ((e - s : ℤ) : ℚ) ≠ 0 := Int.cast_ne_zero.mpr hdist0
    have he : ((e : ℤ) : ℚ) = (s : ℚ) + ((e - s : ℤ) : ℚ) := by push_cast; ring
    have hwalk := slideWalk_eq_map (s : ℚ) ((e - s : ℤ) : ℚ)
      ((maxValues : ℚ) * (1 + (b : ℚ) * cfg.DIGIT_SPEEDBOOST)) hdpos hD
      ((⌈(maxValues : ℚ) * (1 + (b : ℚ) * cfg.DIGIT_SPEEDBOOST)⌉).toNat + 1) 0
      (by omega)
    simp only [Nat.cast_zero, zero_mul, add_zero, Nat.zero_add, Nat.sub_zero] at hwalk
    rw [he, hwalk]
    exact appendEnd_char (head_walkMap _ hN1 s _) (by simp)
  · rw [if_neg hcond]
    have habs : ((e - s).natAbs : ℤ) ≤ maxValues := by
      have := not_lt.mp hcond
      rw [Int.abs_eq_natAbs] at this
      omega
    have hceil : maxValues ≤ ⌈(maxValues : ℚ) * (1 + (b : ℚ) * cfg.DIGIT_SPEEDBOOST)⌉ := by
      calc maxValues = ⌈((maxValues : ℤ) : ℚ)⌉ := (Int.ceil_intCast maxValues).symm
        _ ≤ ⌈(maxValues : ℚ) * (1 + (b : ℚ) * cfg.DIGIT_SPEEDBOOST)⌉ := by
            apply Int.ceil_le_ceil
            have h0m : (0 : ℚ) ≤ (maxValues : ℚ) := by exact_mod_cast le_trans zero_le_one hmax
            exact le_mul_of_one_le_right h0m
              (by linarith : (1 : ℚ) ≤ 1 + (b : ℚ) * cfg.DIGIT_SPEEDBOOST)
    obtain ⟨h1, h2, h3⟩ := createRange_char s e
    exact ⟨h1, h2, by omega⟩

end Odo

namespace Odo

lemma slideDigitsAux_length (cfg : Settings) (maxValues : ℤ) (oldV newV : ℚ)
    (d : ℕ) : ∀ (is : List ℕ) (b : ℕ),
    (slideDigitsAux cfg maxValues oldV newV d is b).length = is.length := by
  intro is
  induction is with
  | nil => intro b; rfl
  | cons i is ih =>
    intro b
    simp only [slideDigitsAux, List.length_cons, ih]

lemma slideDigitsAux_map_head (cfg : Settings) (maxValues : ℤ) (oldV newV : ℚ)
    (d : ℕ) (hmax : 1 ≤ maxValues) (hsb : 0 ≤ cfg.DIGIT_SPEEDBOOST) :
    ∀ (is : List ℕ) (b : ℕ),
      (slideDigitsAux cfg maxValues oldV newV d is b).map List.head? =
      is.map (fun i => some ((jsRemInt (colStart oldV d i) 10).natAbs)) := by
  intro is
  induction is with
  | nil => intro b; rfl
  | cons i is ih =>
    intro b
    simp only [slideDigitsAux, List.map_cons]
    refine congrArg₂ List.cons ?_ (ih _)
    rw [List.head?_map,
      (columnFrames_char cfg maxValues _ _ b hmax hsb).1]
    rfl

lemma slideDigitsAux_map_getLast (cfg : Settings) (maxValues : ℤ)
    (oldV newV : ℚ) (d : ℕ) (hmax : 1 ≤ maxValues)
    (hsb : 0 ≤ cfg.DIGIT_SPEEDBOOST) :
    ∀ (is : List ℕ) (b : ℕ),
      (slideDigitsAux cfg maxValues oldV newV d is b).map List.getLast? =
      is.map (fun i => some ((jsRemInt (colStart newV d i) 10).natAbs)) := by
  intro is
  induction is with
  | nil => intro b; rfl
  | cons i is ih =>
    intro b
    simp only [slideDigitsAux, List.map_cons]
    refine congrArg₂ List.cons ?_ (ih _)
    rw [List.getLast?_map,
      (columnFrames_char cfg maxValues _ _ b hmax hsb).2.1]
    rfl

lemma slideDigitsAux_getD_bound (cfg : Settings) (maxValues : ℤ)
    (oldV newV : ℚ) (d : ℕ) (hmax : 1 ≤ maxValues)
    (hsb : 0 ≤ cfg.DIGIT_SPEEDBOOST) :
    ∀ (is : List ℕ) (b ix : ℕ),
      ((slideDigitsAux cfg maxValues oldV newV d is b).getD ix []).length ≤
      (⌈(maxValues : ℚ) * (1 +
        ((boostedCounts maxValues oldV newV d is b).getD ix 0 : ℚ) *
        cfg.DIGIT_SPEEDBOOST)⌉).toNat + 1 := by
  intro is
  induction is with
  | nil =>
    intro b ix
    simp [slideDigitsAux, boostedCounts]
  | cons i is ih =>
    intro b ix
    rcases ix with _ | ix
    · simp only [slideDigitsAux, boostedCounts, List.getD_cons_zero,
        List.length_map]
      exact (columnFrames_char cfg maxValues _ _ b hmax hsb).2.2
    · simp only [slideDigitsAux, boostedCounts, List.getD_cons_succ]
      exact ih _ _

lemma digitsBE_succ (m d : ℕ) :
    digitsBE m (d + 1) = digitsBE (m / 10) d ++ [m % 10] := by
  unfold digitsBE
  rw [List.range_succ, List.map_append, List.map_cons, List.map_nil]
  refine congrArg₂ (· ++ ·) ?_ ?_
  · apply List.map_congr_left
    intro i hi
    have hi' : i < d := List.mem_range.mp hi
    have he2 : d - 1 - i + 1 = d + 1 - 1 - i := by omega
    have hexp : m / 10 / 10 ^ (d - 1 - i) = m / 10 ^ (d + 1 - 1 - i) := by
      rw [Nat.div_div_eq_div_mul, ← pow_succ', he2]
    rw [hexp]
  · have : d + 1 - 1 - d = 0 := by omega
    rw [this]
    simp

lemma digitsToNat_append_one (l : List ℕ) (x : ℕ) :
    digitsToNat (l ++ [x]) = 10 * digitsToNat l + x := by
  unfold digitsToNat
  rw [List.foldl_append]
  rfl

lemma digitsToNat_digitsBE (d : ℕ) : ∀ m : ℕ, m < 10 ^ d →
    digitsToNat (digitsBE m d) = m := by
  induction d with
  | zero =>
    intro m hm
    have : m = 0 := by simpa using hm
    subst this
    rfl
  | succ d ih =>
    intro m hm
    have hdiv : m / 10 < 10 ^ d := by
      apply (Nat.div_lt_iff_lt_mul (by norm_num : 0 < 10)).mpr
      rw [← pow_succ]
      exact hm
    rw [digitsBE_succ, digitsToNat_append_one, ih (m / 10) hdiv]
    omega

lemma natAbs_jsRemInt_colStart (z : ℤ) (d i : ℕ) :
    (jsRemInt (colStart (z : ℚ) d i) 10).natAbs =
      z.natAbs / 10 ^ (d - 1 - i) % 10 := by
  unfold colStart
  rw [natAbs_jsRemInt_trunc z (d - i - 1)]
  have : d - i - 1 = d - 1 - i := by omega
  rw [this]

lemma ceil_max_abs_intCast (o n : ℤ) :
    (⌈max |(o : ℚ)| |(n : ℚ)|⌉).toNat = max o.natAbs n.natAbs := by
  have h1 : |(o : ℚ)| = ((|o| : ℤ) : ℚ) := by push_cast; rfl
  have h2 : |(n : ℚ)| = ((|n| : ℤ) : ℚ) := by push_cast; rfl
  rw [h1, h2, ← Int.cast_max, Int.ceil_intCast,
    Int.abs_eq_natAbs, Int.abs_eq_natAbs]
  rcases le_total o.natAbs n.natAbs with h | h
  · rw [max_eq_right h, max_eq_right (by exact_mod_cast h : ((o.natAbs : ℕ) : ℤ) ≤ ((n.natAbs : ℕ) : ℤ))]
    omega
  · rw [max_eq_left h, max_eq_left (by exact_mod_cast h : ((n.natAbs : ℕ) : ℤ) ≤ ((o.natAbs : ℕ) : ℤ))]
    omega

end Odo

namespace Odo

/-- C1 (amended): every column of the slide plan holds at most
`⌈MAX_VALUES * (1 + boostedCount * DIGIT_SPEEDBOOST)⌉ + 1` frames, where
`boostedCount` is the number of columns already subsampled before it.  For a
column preceded by no subsampled column this is the claimed
`MAX_VALUES + 1` bound, but a later subsampled column may genuinely exceed
`MAX_VALUES + 1`: the speed boost enlarges the subsampling divisor, which
raises the walk's iteration count instead of lowering it. -/
theorem slide_column_frame_count_bound (cfg : Settings) (maxValues : ℤ)
    (oldV newV : ℚ) (hmax : 1 ≤ maxValues) (hsb : 0 ≤ cfg.DIGIT_SPEEDBOOST)
    (ix : ℕ) :
    ((slidePlan cfg maxValues oldV newV).getD ix []).length ≤
      (⌈(maxValues : ℚ) * (1 +
        ((boostedCounts maxValues oldV newV (getDigitCount oldV newV)
          (List.range (getDigitCount oldV newV)) 0).getD ix 0 : ℚ) *
        cfg.DIGIT_SPEEDBOOST)⌉).toNat + 1 := by
  simp only [slidePlan]
  exact slideDigitsAux_getD_bound cfg maxValues oldV newV _ hmax hsb _ 0 ix

/-- C1 counterexample: with `MAX_VALUES = 3` and the representative speed
boost `1/2`, sliding from `0` to `100` yields the plan
`[[0,1],[0,3,7,0],[0,2,4,7,9,0]]`: the second subsampled column holds 6
frames, exceeding `MAX_VALUES + 1 = 4`, so the claimed uniform
`MAX_VALUES + 1` bound is false. -/
theorem slide_column_frame_count_counterexample :
    slidePlan {} 3 0 100 = [[0, 1], [0, 3, 7, 0], [0, 2, 4, 7, 9, 0]] ∧
    (slidePlan {} 3 0 100).map List.length = [2, 4, 6] ∧
    3 + 1 < ((slidePlan {} 3 0 100).getD 2 []).length := by
  have hq : (⌈max |(0 : ℚ)| |(100 : ℚ)|⌉).toNat = 100 := by
    norm_num
    decide
  have hc5 : (⌈(9/2 : ℚ)⌉) = 5 := by
    rw [show (9/2 : ℚ) = -(-(9/2)) by norm_num, Int.ceil_neg]
    norm_num
  have hc : (⌈(9/2 : ℚ)⌉).toNat = 5 := by
    rw [hc5]
    decide
  have hd : getDigitCount (0 : ℚ) (100 : ℚ) = 3 := by
    unfold getDigitCount
    rw [hq]
    decide
  have hplan : slidePlan {} 3 0 100 = [[0, 1], [0, 3, 7, 0], [0, 2, 4, 7, 9, 0]] := by
    rw [slidePlan]
    rw [hd]
    rw [show List.range 3 = [0, 1, 2] from rfl]
    norm_num [slideDigitsAux, columnFrames, createRange, slideWalk, colStart,
      truncate, jsMathRound, jsRemInt, subsampled, List.range_succ, hc]
  refine ⟨hplan, ?_, ?_⟩
  · rw [hplan]
    decide
  · rw [hplan]
    decide

/-- Witness for the amended C1 bound: instantiated for the plan from `0` to
`100` at `MAX_VALUES = 3` and column index 2. -/
theorem slide_column_frame_count_bound_witness :
    (1 : ℤ) ≤ 3 ∧ (0 : ℚ) ≤ ({} : Settings).DIGIT_SPEEDBOOST ∧
    ((slidePlan {} 3 0 100).getD 2 []).length ≤
      (⌈((3 : ℤ) : ℚ) * (1 +
        ((boostedCounts 3 0 100 (getDigitCount 0 100)
          (List.range (getDigitCount 0 100)) 0).getD 2 0 : ℚ) *
        ({} : Settings).DIGIT_SPEEDBOOST)⌉).toNat + 1 :=
  ⟨by norm_num, by show (0 : ℚ) ≤ 1/2; norm_num,
    slide_column_frame_count_bound {} 3 0 100 (by norm_num)
      (by show (0 : ℚ) ≤ 1/2; norm_num) 2⟩

/-- C2: for a normalized pair `old ≠ new` whose precision-scaled forms are
the integers `o` and `n` (exactly what `animateSlide` computes before
planning), the slide plan has one column per digit of the wider magnitude;
reading columns most-significant first, the last frames are digit-by-digit
the digit string of `|n|` and the first frames the digit string of `|o|`,
and folding those digit strings reconstructs `|n|` and `|o|`. -/
theorem slide_plan_reconstructs_digit_strings (cfg : Settings) (maxValues : ℤ)
    (oldV newV : ℚ) (p : ℕ) (o n : ℤ)
    (ho : oldV * 10 ^ p = (o : ℚ)) (hn : newV * 10 ^ p = (n : ℚ))
    (hne : oldV ≠ newV) (hmax : 1 ≤ maxValues)
    (hsb : 0 ≤ cfg.DIGIT_SPEEDBOOST) :
    (slidePlan cfg maxValues (oldV * 10 ^ p) (newV * 10 ^ p)).length =
      getDigitCount (o : ℚ) (n : ℚ) ∧
    (slidePlan cfg maxValues (oldV * 10 ^ p) (newV * 10 ^ p)).map List.getLast? =
      (digitsBE n.natAbs (getDigitCount (o : ℚ) (n : ℚ))).map some ∧
    (slidePlan cfg maxValues (oldV * 10 ^ p) (newV * 10 ^ p)).map List.head? =
      (digitsBE o.natAbs (getDigitCount (o : ℚ) (n : ℚ))).map some ∧
    digitsToNat (digitsBE n.natAbs (getDigitCount (o : ℚ) (n : ℚ))) = n.natAbs ∧
    digitsToNat (digitsBE o.natAbs (getDigitCount (o : ℚ) (n : ℚ))) = o.natAbs := by
  rw [ho, hn]
  have hdn : getDigitCount (o : ℚ) (n : ℚ) = numDigits (max o.natAbs n.natAbs) := by
    unfold getDigitCount
    rw [ceil_max_abs_intCast]
  have hnlt : n.natAbs < 10 ^ getDigitCount (o : ℚ) (n : ℚ) := by
    rw [hdn]
    exact lt_of_le_of_lt (le_max_right _ _) (numDigits_lt _)
  have holt : o.natAbs < 10 ^ getDigitCount (o : ℚ) (n : ℚ) := by
    rw [hdn]
    exact lt_of_le_of_lt (le_max_left _ _) (numDigits_lt _)
  refine ⟨?_, ?_, ?_, digitsToNat_digitsBE _ _ hnlt, digitsToNat_digitsBE _ _ holt⟩
  · simp only [slidePlan]
    rw [slideDigitsAux_length]
    exact List.length_range _
  · simp only [slidePlan]
    rw [slideDigitsAux_map_getLast cfg maxValues _ _ _ hmax hsb (List.range _) 0]
    unfold digitsBE
    rw [List.map_map]
    apply List.map_congr_left
    intro i _
    simp only [Function.comp_apply]
    rw [natAbs_jsRemInt_colStart]
  · simp only [slidePlan]
    rw [slideDigitsAux_map_head cfg maxValues _ _ _ hmax hsb (List.range _) 0]
    unfold digitsBE
    rw [List.map_map]
    apply List.map_congr_left
    intro i _
    simp only [Function.comp_apply]
    rw [natAbs_jsRemInt_colStart]

/-- Witness for C2: the transition from `-1` to `-42` at precision 0 under
`MAX_VALUES = 30`. -/
theorem slide_plan_reconstructs_digit_strings_witness :
    ((-1 : ℚ) * 10 ^ (0 : ℕ) = ((-1 : ℤ) : ℚ)) ∧
    ((-42 : ℚ) * 10 ^ (0 : ℕ) = ((-42 : ℤ) : ℚ)) ∧
    ((-1 : ℚ) ≠ (-42 : ℚ)) ∧
    ((slidePlan {} 30 ((-1 : ℚ) * 10 ^ (0 : ℕ)) ((-42 : ℚ) * 10 ^ (0 : ℕ))).map
        List.getLast? =
      (digitsBE (Int.natAbs (-42)) (getDigitCount (((-1 : ℤ)) : ℚ)
        (((-42 : ℤ)) : ℚ))).map some) ∧
    digitsToNat (digitsBE (Int.natAbs (-42)) (getDigitCount (((-1 : ℤ)) : ℚ)
      (((-42 : ℤ)) : ℚ))) = Int.natAbs (-42) :=
  ⟨by norm_num, by norm_num, by norm_num,
    (slide_plan_reconstructs_digit_strings {} 30 (-1) (-42) 0 (-1) (-42)
      (by norm_num) (by norm_num) (by norm_num) (by norm_num)
      (by show (0 : ℚ) ≤ 1/2; norm_num)).2.1,
    (slide_plan_reconstructs_digit_strings {} 30 (-1) (-42) 0 (-1) (-42)
      (by norm_num) (by norm_num) (by norm_num) (by norm_num)
      (by show (0 : ℚ) ≤ 1/2; norm_num)).2.2.2.1⟩

end Odo

namespace Odo

/-- The mark carried by a spacer element: plain grouping text, the
`odometer-negation-mark` class, or the `odometer-radix-mark` class. -/
inductive SpacerKind
  | plain
  | negation
  | radix
deriving Repr, DecidableEq

/-- A rendered token of the odometer's inner container: a digit column
(identified by creation order, `this.digits[id]`, carrying its static text)
or a spacer character.  The token list is kept in display order; `insertDigit`
prepends. -/
inductive Token
  | col (id : ℕ) (text : List Char)
  | spacer (c : Char) (kind : SpacerKind)
deriving Repr, DecidableEq

/-- Consumes the reversed repeating pattern until a digit marker: returns the
characters popped as spacers (in pop order) and, when a `'d'` was found, the
remaining reversed pattern. -/
def consumeRev : List Char → List Char × Option (List Char)
  | [] => ([], none)
  | c :: rest =>
    if c = 'd' then ([], some rest)
    else
      let (sp, r) := consumeRev rest
      (c :: sp, r)

/-- Embedding of `addDigit`: state is the current repeating pattern, the
display-ordered token list, and the number of digit columns created so far.
`'-'` and `'.'` short-circuit into marked spacers; a digit with
`repeating = true` pops the pattern (emitting plain spacers) until a digit
marker, resetting the pattern once from `fullRep` (the freshly re-parsed
repeating pattern) and raising `BadFormat` (`none`) if no digit marker
exists even then. -/
def addDigitTok (fullRep : List Char) (radix : Char) (value : Char)
    (repeating : Bool) :
    List Char × List Token × ℕ → Option (List Char × List Token × ℕ)
  | (rep, toks, cnt) =>
    if value = '-' then some (rep, Token.spacer '-' .negation :: toks, cnt)
    else if value = '.' then some (rep, Token.spacer radix .radix :: toks, cnt)
    else if repeating then
      match consumeRev rep.reverse with
      | (sp1, some rem) =>
        some (rem.reverse,
          Token.col cnt [value] ::
            sp1.foldl (fun ts c => Token.spacer c .plain :: ts) toks,
          cnt + 1)
      | (sp1, none) =>
        match consumeRev fullRep.reverse with
        | (sp2, some rem) =>
          some (rem.reverse,
            Token.col cnt [value] ::
              (sp1 ++ sp2).foldl (fun ts c => Token.spacer c .plain :: ts) toks,
            cnt + 1)
        | (_, none) => none
    else some (rep, Token.col cnt [value] :: toks, cnt + 1)

/-- Inserts `sp` directly before the column with creation index `tid` when it
is present. -/
def insertBeforeColAux (tid : ℕ) (sp : Token) : List Token → List Token
  | [] => []
  | Token.col i tx :: ts =>
    if i = tid then sp :: Token.col i tx :: ts
    else Token.col i tx :: insertBeforeColAux tid sp ts
  | Token.spacer c k :: ts => Token.spacer c k :: insertBeforeColAux tid sp ts

/-- Whether a column with creation index `tid` occurs in the token list. -/
def hasCol (tid : ℕ) (ts : List Token) : Bool :=
  ts.any (fun t => match t with | Token.col i _ => i = tid | _ => false)

/-- Embedding of `insertDigit(spacer, this.digits[tid])`: inserted before the
referenced column when it exists, otherwise (reference `undefined`) prepended
to the container. -/
def insertBeforeCol (ts : List Token) (tid : ℕ) (sp : Token) : List Token :=
  if hasCol tid ts then insertBeforeColAux tid sp ts else sp :: ts

/-- The per-column `addDigit(" ", i >= fractionalCount)` loop of
`animateSlide`'s rendering phase, iterating `rem` more columns starting at
index `i`. -/
def slideDomLoop (fullRep : List Char) (radix : Char) (fc : ℕ) :
    ℕ → ℕ → List Char × List Token × ℕ → Option (List Char × List Token × ℕ)
  | 0, _, st => some st
  | rem + 1, i, st => do
    let st' ← addDigitTok fullRep radix ' ' (decide (fc ≤ i)) st
    slideDomLoop fullRep radix fc rem (i + 1) st'

/-- The token output of `animateSlide`'s rendering phase (lines 798–858): one
digit column per plan column (least-significant first in creation order,
grouping spacers consumed from the pattern), then the negation mark when the
leaked loop variable `start` is negative, then the radix mark inserted before
the most significant fractional column.  Returns the final repeating pattern
and the display-ordered tokens; `none` models the `BadFormat` throw. -/
def slideDomTokens (fullRep : List Char) (radix : Char) (fc : ℕ)
    (numCols : ℕ) (negation : Bool) : Option (List Char × List Token) :=
  match slideDomLoop fullRep radix fc numCols 0 (fullRep, [], 0) with
  | none => none
  | some st =>
    let toks2 := if negation then Token.spacer '-' .negation :: st.2.1 else st.2.1
    let toks3 := if fc ≠ 0 then insertBeforeCol toks2 (fc - 1)
      (Token.spacer radix .radix) else toks2
    some (st.1, toks3)

/-- The precision scaling step of `animateSlide`: multiplies by
`10^precision` when the precision is nonzero. -/
def scaleByPrecision (fc : ℕ) (x : ℚ) : ℚ := if fc ≠ 0 then x * 10 ^ fc else x

/-- Embedding of `animateSlide`'s observable token output: scales by
`10^precision`, returns early on a zero difference (no re-render happens; the
empty token list stands for "nothing rendered"), re-parses the format
(`resetDigits`), and renders the plan's columns.  The negation check is the
source's `if (start < 0)` where `start` leaked from the column loop: its
final value is `truncate(old_scaled)` (or the raw old value when the digit
count is zero). -/
def animateSlideTokens (cfg : Settings) (maxValues : ℤ) (opts : Options)
    (fmt : FormatObject) (value newValue : ℚ) : Option (List Token) :=
  let fc := fmt.precision
  let newS := scaleByPrecision fc newValue
  let oldS := scaleByPrecision fc value
  if newS - oldS = 0 then some []
  else
    match parseFormat (effectiveFormatStr cfg opts) with
    | none => none
    | some parsed =>
      let d := getDigitCount oldS newS
      let neg : Bool := if d = 0 then decide (oldS < 0)
        else decide (truncate oldS < 0)
      (slideDomTokens parsed.repeating (radixChar parsed) fc d neg).map (·.2)

/-- Number of negation-mark spacers in a token list. -/
def negationCount (ts : List Token) : ℕ :=
  ts.countP (fun t => match t with
    | Token.spacer _ .negation => true
    | _ => false)

end Odo

namespace Odo

lemma negationCount_foldl_plain (sp : List Char) :
    ∀ toks : List Token,
      negationCount (sp.foldl (fun ts c => Token.spacer c .plain :: ts) toks) =
      negationCount toks := by
  induction sp with
  | nil => intro toks; rfl
  | cons c cs ih =>
    intro toks
    rw [List.foldl_cons, ih]
    rfl

lemma negationCount_addDigitTok_space (fullRep : List Char) (radix : Char)
    (r : Bool) (st st' : List Char × List Token × ℕ)
    (h : addDigitTok fullRep radix ' ' r st = some st') :
    negationCount st'.2.1 = negationCount st.2.1 := by
  obtain ⟨rep, toks, cnt⟩ := st
  unfold addDigitTok at h
  simp only [if_neg (by decide : ¬ (' ' = '-')),
    if_neg (by decide : ¬ (' ' = '.'))] at h
  by_cases hr : r = true
  case neg =>
    rw [if_neg hr] at h
    simp only [Option.some.injEq] at h
    rw [← h]
    simp [negationCount, List.countP_cons]
  case pos =>
    rw [if_pos hr] at h
    rcases h1 : consumeRev rep.reverse with ⟨sp1, rem1⟩
    rw [h1] at h
    rcases rem1 with _ | rem
    · rcases h2 : consumeRev fullRep.reverse with ⟨sp2, rem2⟩
      rw [h2] at h
      rcases rem2 with _ | rem
      · exact absurd h (by simp)
      · simp only [Option.some.injEq] at h
        rw [← h]
        show negationCount (Token.col cnt [' '] :: _) = _
        show negationCount ((sp1 ++ sp2).foldl _ toks) = _
        rw [negationCount_foldl_plain]
    · simp only [Option.some.injEq] at h
      rw [← h]
      show negationCount (Token.col cnt [' '] :: _) = _
      show negationCount (sp1.foldl _ toks) = _
      rw [negationCount_foldl_plain]

lemma negationCount_slideDomLoop (fullRep : List Char) (radix : Char)
    (fc : ℕ) : ∀ (rem i : ℕ) (st st' : List Char × List Token × ℕ),
    slideDomLoop fullRep radix fc rem i st = some st' →
    negationCount st'.2.1 = negationCount st.2.1 := by
  intro rem
  induction rem with
  | zero =>
    intro i st st' h
    cases h
    rfl
  | succ rem ih =>
    intro i st st' h
    unfold slideDomLoop at h
    rcases h1 : addDigitTok fullRep radix ' ' (decide (fc ≤ i)) st with _ | st1
    · rw [h1] at h
      exact absurd h (by simp)
    · rw [h1] at h
      simp only [Option.bind_eq_bind, Option.some_bind] at h
      rw [ih (i + 1) st1 st' h,
        negationCount_addDigitTok_space fullRep radix _ st st1 h1]

lemma negationCount_insertBeforeColAux (tid : ℕ) (c : Char) :
    ∀ ts : List Token,
      negationCount (insertBeforeColAux tid (Token.spacer c .radix) ts) =
      negationCount ts := by
  intro ts
  induction ts with
  | nil => rfl
  | cons t ts ih =>
    rcases t with ⟨i, tx⟩ | ⟨sc, k⟩
    · rw [insertBeforeColAux]
      by_cases hi : i = tid
      · rw [if_pos hi]
        rfl
      · rw [if_neg hi]
        unfold negationCount at ih ⊢
        simp only [List.countP_cons]
        omega
    · rw [insertBeforeColAux]
      unfold negationCount at ih ⊢
      simp only [List.countP_cons]
      omega

lemma negationCount_slideDomTokens (fullRep : List Char) (radix : Char)
    (fc numCols : ℕ) (negation : Bool) (rep : List Char) (ts : List Token)
    (h : slideDomTokens fullRep radix fc numCols negation = some (rep, ts)) :
    negationCount ts = if negation then 1 else 0 := by
  unfold slideDomTokens at h
  rcases h1 : slideDomLoop fullRep radix fc numCols 0 (fullRep, [], 0)
    with _ | ⟨rep1, toks1, cnt⟩
  · rw [h1] at h
    exact absurd h (by simp)
  · rw [h1] at h
    simp only [Option.some.injEq, Prod.mk.injEq] at h
    have hbase : negationCount toks1 = 0 :=
      negationCount_slideDomLoop fullRep radix fc numCols 0 _ _ h1
    rw [← h.2]
    by_cases hfc : fc ≠ 0
    · rw [if_pos hfc, insertBeforeCol]
      by_cases hhas : hasCol (fc - 1)
        (if negation then Token.spacer '-' .negation :: toks1 else toks1) = true
      · rw [if_pos hhas, negationCount_insertBeforeColAux]
        rcases negation with _ | _
        · simpa using hbase
        · simp only [if_true]
          unfold negationCount at hbase ⊢
          simp [List.countP_cons, hbase]
      · rw [if_neg hhas]
        show negationCount (Token.spacer radix .radix :: _) = _
        unfold negationCount at hbase ⊢
        rcases negation with _ | _
        · simpa [List.countP_cons] using hbase
        · simp [List.countP_cons, hbase]
    · rw [if_neg hfc]
      rcases negation with _ | _
      · simpa using hbase
      · unfold negationCount at hbase ⊢
        simp [List.countP_cons, hbase]

end Odo

namespace Odo

lemma default_format_parse :
    parseFormat (effectiveFormatStr {} {}) =
      some { repeating := [',', 'd', 'd', 'd'], radix := none, precision := 0 } := by
  decide

lemma getDigitCount_neg1_neg42 : getDigitCount (-1 : ℚ) (-42 : ℚ) = 2 := by
  have hq : (⌈max |(-1 : ℚ)| |(-42 : ℚ)|⌉).toNat = 42 := by
    norm_num
    decide
  unfold getDigitCount
  rw [hq]
  decide

lemma getDigitCount_zero_neg42 : getDigitCount (0 : ℚ) (-42 : ℚ) = 2 := by
  have hq : (⌈max |(0 : ℚ)| |(-42 : ℚ)|⌉).toNat = 42 := by
    norm_num
    decide
  unfold getDigitCount
  rw [hq]
  decide

lemma truncate_neg_one : truncate (-1 : ℚ) = -1 := by
  rw [show ((-1 : ℚ)) = (((-1 : ℤ)) : ℚ) by norm_num, truncate_intCast]

lemma truncate_zero : truncate (0 : ℚ) = 0 := by
  rw [show ((0 : ℚ)) = (((0 : ℤ)) : ℚ) by norm_num, truncate_intCast]

lemma animateSlideTokens_neg1_neg42 :
    animateSlideTokens {} 30 {} { repeating := [',', 'd', 'd', 'd'] } (-1) (-42) =
      some [Token.spacer '-' .negation, Token.col 1 [' '], Token.col 0 [' ']] := by
  simp only [animateSlideTokens]
  norm_num [default_format_parse, getDigitCount_neg1_neg42, truncate_neg_one,
    scaleByPrecision, -Option.map_eq_some']
  decide

lemma animateSlideTokens_zero_neg42 :
    animateSlideTokens {} 30 {} { repeating := [',', 'd', 'd', 'd'] } 0 (-42) =
      some [Token.col 1 [' '], Token.col 0 [' ']] := by
  simp only [animateSlideTokens]
  norm_num [default_format_parse, getDigitCount_zero_neg42, truncate_zero,
    scaleByPrecision, -Option.map_eq_some']
  decide

lemma slidePlan_lasts_neg1_neg42 :
    (slidePlan {} 30 (-1 : ℚ) (-42 : ℚ)).map List.getLast? = [some 4, some 2] := by
  simp only [slidePlan]
  rw [getDigitCount_neg1_neg42]
  rw [slideDigitsAux_map_getLast {} 30 (-1 : ℚ) (-42 : ℚ) 2 (by norm_num)
    (by show (0 : ℚ) ≤ 1/2; norm_num) (List.range 2) 0]
  rw [show List.range 2 = [0, 1] from rfl]
  simp only [List.map_cons, List.map_nil]
  rw [show ((-42 : ℚ)) = (((-42 : ℤ)) : ℚ) by norm_num]
  rw [natAbs_jsRemInt_colStart, natAbs_jsRemInt_colStart]
  decide

/-- C5 (amended): the negation marker is driven by the OLD value, not the
new one — the source's `if (start < 0)` reads the loop variable `start`
leaked from the column loop, whose final value is the truncated old scaled
value.  For every slide render whose scaled endpoints are integers `o ≠ n`,
the token stream contains exactly one negation marker iff `o < 0` (and none
otherwise); in particular animating `-1 → -42` under the default format
yields exactly the marker followed by the two digit columns, whose plan's
final frames are `4` then `2` in significance order. -/
theorem animateSlide_negation_marker_semantics (cfg : Settings)
    (maxValues : ℤ) (opts : Options) (fmt : FormatObject) (oldV newV : ℚ)
    (o n : ℤ) (ts : List Token)
    (ho : oldV * 10 ^ fmt.precision = (o : ℚ))
    (hn : newV * 10 ^ fmt.precision = (n : ℚ))
    (hone : o ≠ n)
    (h : animateSlideTokens cfg maxValues opts fmt oldV newV = some ts) :
    negationCount ts = (if o < 0 then 1 else 0) ∧
    animateSlideTokens {} 30 {} { repeating := [',', 'd', 'd', 'd'] } (-1) (-42) =
      some [Token.spacer '-' .negation, Token.col 1 [' '], Token.col 0 [' ']] ∧
    (slidePlan {} 30 (-1 : ℚ) (-42 : ℚ)).map List.getLast? = [some 4, some 2] := by
  refine ⟨?_, animateSlideTokens_neg1_neg42, slidePlan_lasts_neg1_neg42⟩
  simp only [animateSlideTokens] at h
  have hOldS : scaleByPrecision fmt.precision oldV = (o : ℚ) := by
    unfold scaleByPrecision
    by_cases hfc : fmt.precision = 0
    · rw [if_neg (by simpa using hfc)]
      rw [hfc] at ho
      simpa using ho
    · rw [if_pos hfc]
      exact ho
  have hNewS : scaleByPrecision fmt.precision newV = (n : ℚ) := by
    unfold scaleByPrecision
    by_cases hfc : fmt.precision = 0
    · rw [if_neg (by simpa using hfc)]
      rw [hfc] at hn
      simpa using hn
    · rw [if_pos hfc]
      exact hn
  rw [hOldS, hNewS] at h
  have hdiff : ¬ ((n : ℚ) - (o : ℚ) = 0) :=
    sub_ne_zero.mpr (by exact_mod_cast hone.symm)
  rw [if_neg hdiff] at h
  rcases hp : parseFormat (effectiveFormatStr cfg opts) with _ | parsed
  · rw [hp] at h
    exact absurd h (by simp)
  · rw [hp] at h
    have hdpos : getDigitCount (o : ℚ) (n : ℚ) ≠ 0 := by
      unfold getDigitCount
      rw [ceil_max_abs_intCast]
      intro h0
      have hlt := numDigits_lt (max o.natAbs n.natAbs)
      rw [h0, pow_zero] at hlt
      have : o.natAbs = 0 ∧ n.natAbs = 0 := by omega
      exact hone (by omega)
    rw [if_neg hdpos, truncate_intCast] at h
    rcases Option.map_eq_some'.mp h with ⟨pr, hpr, hts⟩
    obtain ⟨rep0, ts0⟩ := pr
    have := negationCount_slideDomTokens parsed.repeating (radixChar parsed)
      fmt.precision (getDigitCount (o : ℚ) (n : ℚ)) (decide (o < 0)) rep0 ts0 hpr
    rw [← hts]
    rw [this]
    by_cases hneg : o < 0
    · simp [hneg]
    · simp [hneg]

/-- C5 counterexample: animating to `-42` from the default old value `0`
under the default format produces NO negation marker at all — the sign check
reads the stale `start` variable, which equals the old value `0` — so the
claim that a negation marker appears exactly once is false. -/
theorem animateSlide_negation_marker_counterexample :
    (animateSlideTokens {} 30 {} { repeating := [',', 'd', 'd', 'd'] } 0
      (-42)).map negationCount = some 0 ∧ ((-42 : ℚ) < 0) := by
  rw [animateSlideTokens_zero_neg42]
  refine ⟨?_, by norm_num⟩
  decide

/-- Witness for the amended C5: the `-1 → -42` transition instantiates the
marker-count characterization with one marker. -/
theorem animateSlide_negation_marker_semantics_witness :
    ((-1 : ℚ) * 10 ^ (({ repeating := [',', 'd', 'd', 'd'] } : FormatObject)).precision =
      ((-1 : ℤ) : ℚ)) ∧
    ((-42 : ℚ) * 10 ^ (({ repeating := [',', 'd', 'd', 'd'] } : FormatObject)).precision =
      ((-42 : ℤ) : ℚ)) ∧
    ((-1 : ℤ) ≠ (-42 : ℤ)) ∧
    negationCount [Token.spacer '-' .negation, Token.col 1 [' '], Token.col 0 [' ']] =
      (if (-1 : ℤ) < 0 then 1 else 0) :=
  ⟨by norm_num, by norm_num, by norm_num,
    (animateSlide_negation_marker_semantics {} 30 {}
      { repeating := [',', 'd', 'd', 'd'] } (-1) (-42) (-1) (-42) _
      (by norm_num) (by norm_num) (by norm_num)
      animateSlideTokens_neg1_neg42).1⟩

end Odo

namespace Odo

/-- JS `split(".")` as far as `preservePrecision` consumes it: the part
before the first `'.'` and, when a dot exists, the run between the first
and second dots (`parts[1]`). -/
def splitOnDot : List Char → List Char × Option (List Char)
  | [] => ([], none)
  | c :: cs =>
    if c = '.' then ([], some (cs.takeWhile (fun d => ¬ d = '.')))
    else
      let (a, b) := splitOnDot cs
      (c :: a, b)

/-- Embedding of `preservePrecision` applied to the value's string form:
when the precision is nonzero, appends a decimal point if missing and then
one `'0'` for every fractional position the string lacks. -/
def preservePrecision (p : ℕ) (s : List Char) : List Char :=
  if p = 0 then s
  else
    match (splitOnDot s).2 with
    | none => s ++ '.' :: List.replicate p '0'
    | some frac => s ++ List.replicate (p - frac.length) '0'

/-- Digit values rendered as ASCII digit characters. -/
def digitChars (ds : List ℕ) : List Char := ds.map (fun d => Char.ofNat (48 + d))

/-- Big-endian decimal digit characters of a natural number (`"0"` for 0). -/
def natChars (n : ℕ) : List Char :=
  digitChars (if n = 0 then [0] else digitsBE n (numDigits n))

/-- Exactly `k` fractional digit characters of `f < 10^k`, most significant
first (left zero-padded). -/
def fracChars (k f : ℕ) : List Char := digitChars (digitsBE f k)

/-- Model of the JS builtin `Number.prototype.toString` for finitely
decimal rationals: the shortest plain decimal expansion (sign, integer
digits, and the minimal number of fractional digits).  `none` when the
rational has no finite decimal expansion — such values never arise from the
engine's rounded numbers. -/
def jsToString (q : ℚ) : Option (List Char) :=
  ((List.range (q.den + 1)).find? (fun k => (q * (10 : ℚ) ^ k).den = 1)).map
    (fun k =>
      (if q < 0 then ['-'] else []) ++
        natChars ((|q| * 10 ^ k).num.toNat / 10 ^ k) ++
        (if k = 0 then [] else
          '.' :: fracChars k ((|q| * 10 ^ k).num.toNat % 10 ^ k)))

/-- The character loop of `formatDigits` (no custom format function): walks
the value string in reverse; a `'.'` switches `wholePart` on before the
character is handed to `addDigit`. -/
def formatDigitsLoop (fullRep : List Char) (radix : Char) :
    List Char → Bool → List Char × List Token × ℕ →
    Option (List Char × List Token × ℕ)
  | [], _, st => some st
  | c :: cs, wholePart, st =>
    let wp := if c = '.' then true else wholePart
    match addDigitTok fullRep radix c wp st with
    | none => none
    | some st' => formatDigitsLoop fullRep radix cs wp st'

/-- The custom-format-function branch of `formatDigits`: every character of
the supplied string becomes a static token (digit column or plain spacer),
no pattern is consumed and no failure is possible. -/
def formatDigitsCustom (valueStr : List Char) : List Token :=
  (valueStr.reverse).foldl
    (fun acc c =>
      if isDigitChar c then (Token.col acc.2 [c] :: acc.1, acc.2 + 1)
      else (Token.spacer c .plain :: acc.1, acc.2))
    (([] : List Token), 0) |>.1

/-- Embedding of `formatDigits` on the projection path: preserves precision
on the value's string form and runs the reversed character loop from the
freshly parsed pattern, returning the leftover pattern and display tokens. -/
def formatDigitsModel (parsed : FormatObject) (valueStr : List Char) :
    Option (List Char × List Token) :=
  match formatDigitsLoop parsed.repeating (radixChar parsed)
      (preservePrecision parsed.precision valueStr).reverse
      (decide (parsed.precision = 0)) (parsed.repeating, [], 0) with
  | none => none
  | some st => some (st.1, st.2.1)

/-- Embedding of `render`: re-parses the format, clears the container, and
re-renders the digits of `value`; its net state effect is the committed
format (with the repeating pattern as consumed by `formatDigits`).  `none`
models a propagated `InvalidFormat`/`BadFormat` throw (or a value outside
the plain-decimal fragment of the `toString` model). -/
def render (cfg : Settings) (s : InstState) (value : ℚ) : Option InstState :=
  if ¬ cfg.browser then some s
  else
    match parseFormat (effectiveFormatStr cfg s.options) with
    | none => none
    | some parsed =>
      match s.options.formatFunction with
      | some _fn => some { s with format := parsed }
      | none =>
        match jsToString value with
        | none => none
        | some str =>
          match formatDigitsModel parsed str with
          | none => none
          | some pr => some { s with format := { parsed with repeating := pr.1 } }

/-- Embedding of `animateSlide`'s synchronous state effect: early return on
a zero scaled difference; otherwise binds the transition listener, re-parses
the format (`resetDigits`), and builds the columns, leaving the repeating
pattern as consumed.  `none` models a propagated throw. -/
def animateSlideState (cfg : Settings) (s : InstState) (newValue : ℚ) :
    Option InstState :=
  let fc := s.format.precision
  let newS := scaleByPrecision fc newValue
  let oldS := scaleByPrecision fc s.value
  if newS - oldS = 0 then some s
  else
    match parseFormat (effectiveFormatStr cfg s.options) with
    | none => none
    | some parsed =>
      let d := getDigitCount oldS newS
      let neg : Bool := if d = 0 then decide (oldS < 0)
        else decide (truncate oldS < 0)
      match slideDomTokens parsed.repeating (radixChar parsed) fc d neg with
      | none => none
      | some pr => some { s with
          transitionEndBound := true,
          format := { parsed with repeating := pr.1 } }

/-- Embedding of `animate`: selects the count or slide animation.  The
count animation's synchronous effect is only to schedule a frame, so the
state is unchanged. -/
def animate (cfg : Settings) (s : InstState) (newValue : ℚ) :
    Option InstState :=
  if s.options.animation = some AnimationMode.count then some s
  else animateSlideState cfg s newValue

/-- Events emitted synchronously by the controller (`odometerstart` and
`odometerdone` custom events with their payload values). -/
inductive Ev
  | start (value oldValue : ℚ)
  | done (value : ℚ)
deriving Repr, DecidableEq

/-- Embedding of `update`: outside a browser only the logical value is
stored; otherwise the input is normalized, a zero difference returns with no
notification and no state change, and a real change marks the instance
animating, emits the start notification, runs the animation, and commits the
new value.  `none` models a propagated throw (in the source the start event
has fired by then; the value assignment has not been reached). -/
def update (cfg : Settings) (s : InstState) (x : List Char ⊕ ℚ) :
    Option (InstState × List Ev) :=
  if ¬ cfg.browser then some ({ s with value := cleanValue s.format x }, [])
  else
    let v := cleanValue s.format x
    if v - s.value = 0 then some (s, [])
    else
      match animate cfg { s with isAnimating := true } v with
      | none => none
      | some s2 => some ({ s2 with value := v }, [Ev.start v s.value])

/-- Merge of an options patch over the current options (`{ ...this.options,
...newOptions }`): present keys of the patch override. -/
def mergeOptions (base p : Options) : Options where
  id := p.id.or base.id
  value := p.value.or base.value
  format := p.format.or base.format
  duration := p.duration.or base.duration
  framerate := p.framerate.or base.framerate
  countFramerate := p.countFramerate.or base.countFramerate
  animation := p.animation.or base.animation
  formatFunction := p.formatFunction.or base.formatFunction

/-- Embedding of `setOptions`: merges the patch (the bound element is
ignored), recomputes the derived timing fields and `MAX_VALUES`, re-parses
the format when a format key was present, then either delegates to `update`
(value key present) or re-renders when format/timing changed. -/
def setOptions (cfg : Settings) (s : InstState) (p : Options) :
    Option (InstState × List Ev) :=
  let hasValueChange := p.value.isSome
  let hadFormatChange := p.format.isSome || p.formatFunction.isSome
  let hadTimingChange := p.duration.isSome || p.framerate.isSome ||
    p.countFramerate.isSome
  let merged0 := mergeOptions s.options p
  let merged := { merged0 with duration := some (merged0.duration.getD cfg.DURATION) }
  let frameRate := merged.framerate.getD cfg.FRAMERATE
  let countFrameRate := merged.countFramerate.getD cfg.COUNT_FRAMERATE
  let s1 : InstState := { s with
    options := merged,
    msPerFrame := 1000 / frameRate,
    countMsPerFrame := 1000 / countFrameRate,
    maxValues := truncate (merged.duration.getD cfg.DURATION /
      (1000 / frameRate) / cfg.FRAMES_PER_VALUE) }
  match (if hadFormatChange then resetFormat cfg s1 else .ok s1) with
  | .error _ => none
  | .ok s2 =>
    if hasValueChange then update cfg s2 (merged.value.getD (.inr 0))
    else if hadFormatChange || hadTimingChange then
      if cfg.browser then (render cfg s2 s2.value).map (fun s3 => (s3, []))
      else some (s2, [])
    else some (s2, [])

/-- Embedding of `disconnect` (the spec's `destroy`): once destroyed it
returns immediately; otherwise it stops observers, cancels frames, detaches
the transition listener, and marks the instance destroyed. -/
def disconnect (s : InstState) : InstState :=
  if s.destroyed then s
  else { s with transitionEndBound := false, destroyed := true }

end Odo

namespace Odo

lemma animateSlideState_effect (cfg : Settings) (s : InstState) (v : ℚ)
    (s2 : InstState) (h : animateSlideState cfg s v = some s2) :
    s2.value = s.value ∧ s2.options = s.options ∧ s2.destroyed = s.destroyed ∧
    s2.isAnimating = s.isAnimating ∧
    (s2.format = s.format ∨
      ∃ parsed, parseFormat (effectiveFormatStr cfg s.options) = some parsed ∧
        s2.format.radix = parsed.radix ∧ s2.format.precision = parsed.precision) := by
  simp only [animateSlideState] at h
  split at h
  · cases h
    exact ⟨rfl, rfl, rfl, rfl, Or.inl rfl⟩
  · split at h
    · exact absurd h (by simp)
    · next parsed hp =>
      split at h
      · exact absurd h (by simp)
      · simp only [Option.some.injEq] at h
        rw [← h]
        exact ⟨rfl, rfl, rfl, rfl, Or.inr ⟨parsed, hp, rfl, rfl⟩⟩

lemma animate_effect (cfg : Settings) (s : InstState) (v : ℚ) (s2 : InstState)
    (h : animate cfg s v = some s2) :
    s2.value = s.value ∧ s2.options = s.options ∧ s2.destroyed = s.destroyed ∧
    s2.isAnimating = s.isAnimating ∧
    (s2.format = s.format ∨
      ∃ parsed, parseFormat (effectiveFormatStr cfg s.options) = some parsed ∧
        s2.format.radix = parsed.radix ∧ s2.format.precision = parsed.precision) := by
  unfold animate at h
  by_cases hc : s.options.animation = some AnimationMode.count
  · rw [if_pos hc] at h
    cases h
    exact ⟨rfl, rfl, rfl, rfl, Or.inl rfl⟩
  · rw [if_neg hc] at h
    exact animateSlideState_effect cfg s v s2 h

lemma update_preserves_destroyed (cfg : Settings) (s : InstState)
    (x : List Char ⊕ ℚ) (r : InstState × List Ev)
    (h : update cfg s x = some r) : r.1.destroyed = s.destroyed := by
  unfold update at h
  by_cases hb : cfg.browser
  · rw [if_neg (by simpa using hb)] at h
    by_cases hv : cleanValue s.format x - s.value = 0
    · rw [if_pos hv] at h
      cases h
      rfl
    · rw [if_neg hv] at h
      rcases ha : animate cfg { s with isAnimating := true }
          (cleanValue s.format x) with _ | s2
      · rw [ha] at h
        exact absurd h (by simp)
      · rw [ha] at h
        simp only [Option.some.injEq] at h
        rw [← h]
        exact (animate_effect cfg _ _ s2 ha).2.2.1
  · rw [if_pos (by simpa using hb)] at h
    cases h
    rfl

lemma render_preserves_destroyed (cfg : Settings) (s : InstState) (v : ℚ)
    (s3 : InstState) (h : render cfg s v = some s3) :
    s3.destroyed = s.destroyed := by
  unfold render at h
  split at h
  · cases h
    rfl
  · split at h
    · exact absurd h (by simp)
    · split at h
      · simp only [Option.some.injEq] at h
        rw [← h]
      · split at h
        · exact absurd h (by simp)
        · split at h
          · exact absurd h (by simp)
          · simp only [Option.some.injEq] at h
            rw [← h]

lemma setOptions_preserves_destroyed (cfg : Settings) (s : InstState)
    (p : Options) (r : InstState × List Ev)
    (h : setOptions cfg s p = some r) : r.1.destroyed = s.destroyed := by
  simp only [setOptions] at h
  split at h
  · exact absurd h (by simp)
  · next s2 hrf =>
    have hs2 : s2.destroyed = s.destroyed := by
      split at hrf
      · unfold resetFormat at hrf
        split at hrf
        · simp only [Except.ok.injEq] at hrf
          rw [← hrf]
        · exact absurd hrf (by simp)
      · simp only [Except.ok.injEq] at hrf
        rw [← hrf]
    by_cases hv : p.value.isSome = true
    · rw [if_pos hv] at h
      rw [update_preserves_destroyed cfg s2 _ r h, hs2]
    · rw [if_neg hv] at h
      by_cases hft : ((p.format.isSome || p.formatFunction.isSome) ||
          (p.duration.isSome || p.framerate.isSome || p.countFramerate.isSome)) = true
      · rw [if_pos hft] at h
        by_cases hb : cfg.browser = true
        · rw [if_pos hb] at h
          rcases hrd : render cfg s2 s2.value with _ | s3
          · rw [hrd] at h
            exact absurd h (by simp)
          · rw [hrd] at h
            simp only [Option.map_some', Option.some.injEq] at h
            rw [← h]
            rw [render_preserves_destroyed cfg s2 _ s3 hrd, hs2]
        · rw [if_neg hb] at h
          cases h
          exact hs2
      · rw [if_neg hft] at h
        cases h
        exact hs2

end Odo

namespace Odo

lemma cleanValue_congr (fmt fmt' : FormatObject) (hr : fmt.radix = fmt'.radix)
    (hp : fmt.precision = fmt'.precision) (x : List Char ⊕ ℚ) :
    cleanValue fmt x = cleanValue fmt' x := by
  cases x with
  | inl s =>
    unfold cleanValue cleanString radixChar
    rw [hr, hp]
  | inr q =>
    unfold cleanValue
    rw [hp]

lemma getDigitCount_zero_five : getDigitCount (0 : ℚ) (5 : ℚ) = 1 := by
  have hq : (⌈max |(0 : ℚ)| |(5 : ℚ)|⌉).toNat = 5 := by
    norm_num
    decide
  unfold getDigitCount
  rw [hq]
  decide

lemma cleanValue_five :
    cleanValue { repeating := [',', 'd', 'd', 'd'] } (.inr 5) = 5 := by
  unfold cleanValue round jsMathRound
  norm_num

lemma update_eval_concrete (b : Bool) :
    update {} { value := 0, format := { repeating := [',', 'd', 'd', 'd'] },
                options := {}, destroyed := b } (.inr 5) =
      some ({ value := 5, format := { repeating := [',', 'd', 'd'] },
              options := {}, isAnimating := true, destroyed := b,
              transitionEndBound := true }, [Ev.start 5 0]) := by
  have hdt : slideDomTokens [',', 'd', 'd', 'd'] '.' 0 1 false =
      some ([',', 'd', 'd'], [Token.col 0 [' ']]) := by decide
  simp only [update, animate, animateSlideState]
  norm_num [cleanValue_five, scaleByPrecision, default_format_parse,
    getDigitCount_zero_five, truncate_zero, radixChar, hdt]
  rfl

/-- C4 (amended): `destroy`/`disconnect` is idempotent and the `destroyed`
flag itself is terminal — a second `disconnect` changes nothing, every
completed `update` and `setOptions` call preserves the flag, and no
operation resets it.  The rest of the instance is NOT frozen: `update` after
`disconnect` still mutates `currentValue` (see the counterexample). -/
theorem disconnect_idempotent_destroyed_terminal :
    (∀ s : InstState, disconnect (disconnect s) = disconnect s) ∧
    (∀ s : InstState, (disconnect s).destroyed = true) ∧
    (∀ (cfg : Settings) (s : InstState) (x : List Char ⊕ ℚ)
      (r : InstState × List Ev), update cfg s x = some r →
      r.1.destroyed = s.destroyed) ∧
    (∀ (cfg : Settings) (s : InstState) (p : Options)
      (r : InstState × List Ev), setOptions cfg s p = some r →
      r.1.destroyed = s.destroyed) := by
  refine ⟨?_, ?_, update_preserves_destroyed, setOptions_preserves_destroyed⟩
  · intro s
    by_cases hd : s.destroyed = true
    · have h1 : disconnect s = s := by
        unfold disconnect
        rw [if_pos hd]
      rw [h1]
      exact h1
    · have h1 : disconnect s =
          { s with transitionEndBound := false, destroyed := true } := by
        unfold disconnect
        rw [if_neg hd]
      rw [h1]
      show disconnect _ = _
      unfold disconnect
      rw [if_pos rfl]
  · intro s
    by_cases hd : s.destroyed = true
    · have h1 : disconnect s = s := by
        unfold disconnect
        rw [if_pos hd]
      rw [h1, hd]
    · have h1 : disconnect s =
          { s with transitionEndBound := false, destroyed := true } := by
        unfold disconnect
        rw [if_neg hd]
      rw [h1]

/-- C4 counterexample: after `disconnect`, the instance is destroyed, yet
`update(5)` still changes `currentValue` from `0` to `5` — `update` has no
`destroyed` guard, so the destroyed state is not terminal for the other
fields. -/
theorem disconnect_not_terminal_counterexample :
    (disconnect { value := 0, format := { repeating := [',', 'd', 'd', 'd'] },
                  options := {} }).destroyed = true ∧
    (disconnect { value := 0, format := { repeating := [',', 'd', 'd', 'd'] },
                  options := {} }).value = 0 ∧
    (update {} (disconnect { value := 0,
                             format := { repeating := [',', 'd', 'd', 'd'] },
                             options := {} })
      (.inr 5)).map (fun r => r.1.value) = some 5 := by
  have hdisc : disconnect { value := 0,
                            format := { repeating := [',', 'd', 'd', 'd'] },
                            options := {} } =
      { value := 0, format := { repeating := [',', 'd', 'd', 'd'] },
        options := {}, destroyed := true } := by
    unfold disconnect
    rw [if_neg (by decide)]
  rw [hdisc]
  refine ⟨rfl, rfl, ?_⟩
  rw [update_eval_concrete true]
  rfl

/-- Witness for the amended C4: a concrete destroyed instance on which a
second `disconnect` is a no-op and a completed `update` keeps the flag. -/
theorem disconnect_idempotent_destroyed_terminal_witness :
    disconnect (disconnect { value := 0,
                             format := { repeating := [',', 'd', 'd', 'd'] },
                             options := {} }) =
      disconnect { value := 0, format := { repeating := [',', 'd', 'd', 'd'] },
                   options := {} } ∧
    ({ value := 5, format := { repeating := [',', 'd', 'd'] }, options := {},
       isAnimating := true, destroyed := true,
       transitionEndBound := true } : InstState).destroyed =
      ({ value := 0, format := { repeating := [',', 'd', 'd', 'd'] },
         options := {}, destroyed := true } : InstState).destroyed :=
  ⟨disconnect_idempotent_destroyed_terminal.1 _,
    disconnect_idempotent_destroyed_terminal.2.2.1 {} _ (.inr 5) _
      (update_eval_concrete true)⟩

/-- C7: a second consecutive `update` with the same input is a no-op: it
returns the unchanged state and emits no notification.  The well-formedness
hypothesis ties the stored format to the parse of the instance's options
(radix and precision), which is how every committed format arises. -/
theorem update_second_call_noop (cfg : Settings) (s : InstState)
    (x : List Char ⊕ ℚ) (s1 : InstState) (ev : List Ev)
    (hwf : ∀ parsed, parseFormat (effectiveFormatStr cfg s.options) = some parsed →
      parsed.radix = s.format.radix ∧ parsed.precision = s.format.precision)
    (h : update cfg s x = some (s1, ev)) :
    update cfg s1 x = some (s1, []) := by
  unfold update at h ⊢
  by_cases hb : cfg.browser = true
  · rw [if_neg (by simpa using hb)] at h ⊢
    by_cases hv : cleanValue s.format x - s.value = 0
    · rw [if_pos hv] at h
      simp only [Option.some.injEq, Prod.mk.injEq] at h
      rw [← h.1, if_pos hv]
    · rw [if_neg hv] at h
      rcases ha : animate cfg { s with isAnimating := true }
          (cleanValue s.format x) with _ | s2
      · rw [ha] at h
        exact absurd h (by simp)
      · rw [ha] at h
        simp only [Option.some.injEq, Prod.mk.injEq] at h
        have heff := animate_effect cfg _ _ s2 ha
        have hv2 : cleanValue s1.format x = cleanValue s.format x := by
          rw [← h.1]
          rcases heff.2.2.2.2 with hfmt | ⟨parsed, hp, hr, hpc⟩
          · show cleanValue s2.format x = _
            rw [hfmt]
          · obtain ⟨hrx, hpx⟩ := hwf parsed hp
            apply cleanValue_congr
            · show s2.format.radix = s.format.radix
              rw [hr, hrx]
            · show s2.format.precision = s.format.precision
              rw [hpc, hpx]
        have hval : s1.value = cleanValue s.format x := by
          rw [← h.1]
        rw [if_pos (by rw [hv2, hval]; ring)]
  · rw [if_pos (by simpa using hb)] at h ⊢
    simp only [Option.some.injEq, Prod.mk.injEq] at h
    rw [← h.1]

/-- Witness for C7: updating twice to `5` from a fresh instance; the second
call returns the state of the first unchanged with no events. -/
theorem update_second_call_noop_witness :
    update {} ({ value := 5, format := { repeating := [',', 'd', 'd'] },
                 options := {}, isAnimating := true, destroyed := false,
                 transitionEndBound := true } : InstState) (.inr 5) =
      some ({ value := 5, format := { repeating := [',', 'd', 'd'] },
              options := {}, isAnimating := true, destroyed := false,
              transitionEndBound := true }, []) :=
  update_second_call_noop {}
    { value := 0, format := { repeating := [',', 'd', 'd', 'd'] },
      options := {}, destroyed := false } (.inr 5) _ _
    (by
      intro parsed hp
      have hp' : parseFormat (effectiveFormatStr {} {}) = some parsed := hp
      rw [default_format_parse] at hp'
      cases hp'
      exact ⟨rfl, rfl⟩)
    (update_eval_concrete false)

end Odo
namespace Odo

/-- The text content of one rendered token: a digit column shows its digit
characters, a spacer shows its character. -/
def tokenText : Token → List Char
  | Token.col _ tx => tx
  | Token.spacer c _ => [c]

/-- The concatenated text of a display-ordered token list — the string a
reader of the rendered odometer sees. -/
def tokensText (ts : List Token) : List Char := (ts.map tokenText).join

/-- The projection of a value through the engine's rendering pipeline: the
value's string form (`toString`), padded by `preservePrecision` and rendered
by `formatDigits`, read back as the concatenated token text. -/
def projectedText (parsed : FormatObject) (v : ℚ) : Option (List Char) :=
  (jsToString v).bind fun str =>
    (formatDigitsModel parsed str).map fun pr => tokensText pr.2

lemma tokensText_cons (t : Token) (ts : List Token) :
    tokensText (t :: ts) = tokenText t ++ tokensText ts := by
  simp [tokensText]

lemma isDigitChar_props (c : Char) (h : isDigitChar c = true) :
    strippedChar c = false ∧ c ≠ '.' ∧ c ≠ '-' ∧ c ≠ '<' ∧
    (c = ' ' || c = '\t' || c = '\n' || c = '\r') = false := by
  refine ⟨?_, ?_, ?_, ?_, ?_⟩
  · cases hc : strippedChar c
    · rfl
    · exfalso
      unfold strippedChar at hc
      simp only [Bool.or_eq_true, decide_eq_true_eq] at hc
      rcases hc with ((((((((h1 | h1) | h1) | h1) | h1) | h1) | h1) | h1) | h1) | h1 <;>
        (subst h1; exact absurd h (by decide))
  · intro h1; subst h1; exact absurd h (by decide)
  · intro h1; subst h1; exact absurd h (by decide)
  · intro h1; subst h1; exact absurd h (by decide)
  · cases hw : (c = ' ' || c = '\t' || c = '\n' || c = '\r')
    · rfl
    · exfalso
      simp only [Bool.or_eq_true, decide_eq_true_eq] at hw
      rcases hw with ((h1 | h1) | h1) | h1 <;>
        (subst h1; exact absurd h (by decide))

lemma digitChar_is_digit (d : ℕ) (hd : d < 10) :
    isDigitChar (Char.ofNat (48 + d)) = true := by
  interval_cases d <;> decide

lemma digitChar_val (d : ℕ) (hd : d < 10) :
    digitVal (Char.ofNat (48 + d)) = d := by
  interval_cases d <;> decide

lemma digitsBE_lt_ten (m d : ℕ) : ∀ x ∈ digitsBE m d, x < 10 := by
  intro x hx
  unfold digitsBE at hx
  simp only [List.mem_map, List.mem_range] at hx
  obtain ⟨i, _, hi⟩ := hx
  omega

lemma spanDigits_digitChars (r : List Char)
    (hr : ∀ c, r.head? = some c → isDigitChar c = false) :
    ∀ ds : List ℕ, (∀ d ∈ ds, d < 10) →
    spanDigits (digitChars ds ++ r) = (ds, r) := by
  intro ds
  induction ds with
  | nil =>
    intro _
    cases r with
    | nil => rfl
    | cons c cs =>
      show spanDigits (c :: cs) = ([], c :: cs)
      unfold spanDigits
      rw [if_neg (by simp [hr c rfl])]
  | cons d ds ih =>
    intro hds
    show spanDigits (Char.ofNat (48 + d) :: (digitChars ds ++ r)) = _
    unfold spanDigits
    rw [if_pos (by simp [digitChar_is_digit d (hds d (by simp))])]
    rw [ih (fun x hx => hds x (by simp [hx]))]
    simp [digitChar_val d (hds d (by simp))]

lemma digitsToNat_append_zeros (l : List ℕ) :
    ∀ m : ℕ, digitsToNat (l ++ List.replicate m 0) = digitsToNat l * 10 ^ m := by
  intro m
  induction m with
  | zero => simp
  | succ m ih =>
    rw [List.replicate_succ', ← List.append_assoc, digitsToNat_append_one,
      ih]
    ring

end Odo

namespace Odo

lemma consumeRev_sp_mem : ∀ l : List Char, ∀ c ∈ (consumeRev l).1,
    c ∈ l ∧ c ≠ 'd' := by
  intro l
  induction l with
  | nil => intro c hc; exact absurd hc (by simp [consumeRev])
  | cons a t ih =>
    intro c hc
    by_cases ha : a = 'd'
    · subst ha
      simp only [consumeRev, if_pos rfl] at hc
      exact absurd hc (by simp)
    · simp only [consumeRev, if_neg ha] at hc
      rcases List.mem_cons.mp hc with h1 | h1
      · subst h1; exact ⟨by simp, ha⟩
      · obtain ⟨h2, h3⟩ := ih c h1
        exact ⟨by simp [h2], h3⟩

lemma consumeRev_rem_mem : ∀ l rem : List Char,
    (consumeRev l).2 = some rem → ∀ c ∈ rem, c ∈ l := by
  intro l
  induction l with
  | nil => intro rem h; exact absurd h (by simp [consumeRev])
  | cons a t ih =>
    intro rem h c hc
    by_cases ha : a = 'd'
    · subst ha
      simp only [consumeRev, if_pos rfl] at h
      cases h
      simp [hc]
    · simp only [consumeRev, if_neg ha] at h
      exact List.mem_cons_of_mem a (ih rem h c hc)

lemma consumeRev_isSome : ∀ l : List Char, 'd' ∈ l →
    ((consumeRev l).2).isSome = true := by
  intro l
  induction l with
  | nil => intro h; exact absurd h (by simp)
  | cons a t ih =>
    intro h
    by_cases ha : a = 'd'
    · subst ha; simp [consumeRev]
    · simp only [consumeRev, if_neg ha]
      rcases List.mem_cons.mp h with h1 | h1
      · exact absurd h1.symm ha
      · exact ih h1

lemma replaceFirstSeq_single_at (c : Char) (repl : List Char) :
    ∀ A B : List Char, c ∉ A →
    replaceFirstSeq [c] repl (A ++ c :: B) = A ++ repl ++ B := by
  intro A
  induction A with
  | nil =>
    intro B _
    show replaceFirstSeq [c] repl (c :: B) = repl ++ B
    unfold replaceFirstSeq
    rw [if_pos (by simp [seqStartsWith])]
    rfl
  | cons a t ih =>
    intro B hA
    have hac : ¬ (c = a) := fun h => hA (by simp [h])
    show replaceFirstSeq [c] repl (a :: (t ++ c :: B)) = a :: (t ++ repl ++ B)
    unfold replaceFirstSeq
    rw [if_neg (by simp [seqStartsWith, hac])]
    rw [ih B (fun h => hA (by simp [h]))]

lemma replaceFirstSeq_of_head_not_mem (c : Char) (t repl : List Char) :
    ∀ l : List Char, c ∉ l → replaceFirstSeq (c :: t) repl l = l := by
  intro l
  induction l with
  | nil =>
    intro _
    show replaceFirstSeq (c :: t) repl [] = []
    unfold replaceFirstSeq
    rw [if_neg (by simp [seqStartsWith])]
  | cons a r ih =>
    intro hl
    have hac : ¬ (c = a) := fun h => hl (by simp [h])
    show replaceFirstSeq (c :: t) repl (a :: r) = a :: r
    unfold replaceFirstSeq
    rw [if_neg (by simp [seqStartsWith, hac])]
    rw [ih (fun h => hl (by simp [h]))]

lemma seqStartsWith_self_append : ∀ pat B : List Char,
    seqStartsWith pat (pat ++ B) = true := by
  intro pat
  induction pat with
  | nil => intro B; rfl
  | cons p ps ih => intro B; simp [seqStartsWith, ih]

lemma replaceFirstSeq_seq_at (c : Char) (t repl : List Char) :
    ∀ A B : List Char, c ∉ A →
    replaceFirstSeq (c :: t) repl (A ++ (c :: t) ++ B) = A ++ repl ++ B := by
  intro A
  induction A with
  | nil =>
    intro B _
    show replaceFirstSeq (c :: t) repl (c :: (t ++ B)) = repl ++ B
    unfold replaceFirstSeq
    rw [if_pos (by
      simp only [seqStartsWith, decide_True, Bool.true_and]
      exact seqStartsWith_self_append t B)]
    congr 1
    show (c :: (t ++ B)).drop (t.length + 1) = B
    rw [List.drop_succ_cons, List.drop_left]
  | cons a tA ih =>
    intro B hA
    have hac : ¬ (c = a) := fun h => hA (by simp [h])
    show replaceFirstSeq (c :: t) repl (a :: (tA ++ (c :: t) ++ B)) =
      a :: (tA ++ repl ++ B)
    unfold replaceFirstSeq
    rw [if_neg (by simp [seqStartsWith, hac])]
    rw [ih B (fun h => hA (by simp [h]))]

lemma splitOnDot_no_dot : ∀ s : List Char, '.' ∉ s →
    splitOnDot s = (s, none) := by
  intro s
  induction s with
  | nil => intro _; rfl
  | cons a t ih =>
    intro hs
    have ha : ¬ (a = '.') := fun h => hs (by simp [h])
    show splitOnDot (a :: t) = (a :: t, none)
    unfold splitOnDot
    rw [if_neg ha, ih (fun h => hs (by simp [h]))]

lemma splitOnDot_at : ∀ A B : List Char, '.' ∉ A →
    splitOnDot (A ++ '.' :: B) = (A, some (B.takeWhile (fun d => ¬ d = '.'))) := by
  intro A
  induction A with
  | nil =>
    intro B _
    show splitOnDot ('.' :: B) = _
    unfold splitOnDot
    rw [if_pos rfl]
  | cons a t ih =>
    intro B hA
    have ha : ¬ (a = '.') := fun h => hA (by simp [h])
    show splitOnDot (a :: (t ++ '.' :: B)) = _
    unfold splitOnDot
    rw [if_neg ha, ih B (fun h => hA (by simp [h]))]

lemma preservePrecision_no_dot (p : ℕ) (hp : p ≠ 0) (A : List Char)
    (hA : '.' ∉ A) :
    preservePrecision p A = A ++ '.' :: List.replicate p '0' := by
  unfold preservePrecision
  rw [if_neg hp, splitOnDot_no_dot A hA]

lemma preservePrecision_at_dot (p : ℕ) (hp : p ≠ 0) (A B : List Char)
    (hA : '.' ∉ A) (hB : '.' ∉ B) :
    preservePrecision p (A ++ '.' :: B) =
      A ++ '.' :: (B ++ List.replicate (p - B.length) '0') := by
  unfold preservePrecision
  rw [if_neg hp, splitOnDot_at A B hA]
  rw [List.takeWhile_eq_self_iff.mpr (fun c hc => by
    simp only [decide_eq_true_eq]
    exact fun h => hB (h ▸ hc))]
  simp

end Odo

namespace Odo

lemma find?_range_min (pred : ℕ → Bool) :
    ∀ n k : ℕ, (List.range n).find? pred = some k →
      pred k = true ∧ ∀ j < k, pred j = false := by
  intro n
  induction n generalizing pred with
  | zero => intro k h; exact absurd h (by simp)
  | succ n ih =>
    intro k h
    rw [List.range_succ_eq_map] at h
    cases hp0 : pred 0 with
    | true =>
      rw [List.find?_cons_of_pos _ hp0] at h
      cases h
      exact ⟨hp0, fun j hj => absurd hj (by omega)⟩
    | false =>
      rw [List.find?_cons_of_neg _ (by simp [hp0])] at h
      rw [List.find?_map] at h
      obtain ⟨k1, hk1, hmap⟩ := Option.map_eq_some'.mp h
      obtain ⟨hpk, hall⟩ := ih (pred ∘ Nat.succ) k1 hk1
      subst hmap
      refine ⟨hpk, ?_⟩
      intro j hj
      cases j with
      | zero => exact hp0
      | succ j1 => exact hall j1 (by omega)

lemma den_dvd_pow_den (q : ℚ) (p : ℕ) (h : (q * 10 ^ p).den = 1) :
    q.den ∣ 10 ^ p := by
  have hm : ((q * 10 ^ p).num : ℚ) = q * 10 ^ p :=
    (Rat.den_eq_one_iff _).mp h
  have hq : q = Rat.divInt (q * 10 ^ p).num ((10 : ℤ) ^ p) := by
    rw [Rat.divInt_eq_div, hm]
    have h10 : (((10 : ℤ) ^ p : ℤ) : ℚ) = (10 : ℚ) ^ p := by push_cast; ring
    rw [h10]
    field_simp
  have hdvd := Rat.den_dvd (q * 10 ^ p).num ((10 : ℤ) ^ p)
  rw [← hq] at hdvd
  have h10n : ((10 : ℤ)) ^ p = (((10 ^ p : ℕ) : ℤ)) := by push_cast; ring
  rw [h10n] at hdvd
  exact_mod_cast hdvd

lemma den_dvd_self_pow (n : ℕ) (hn : 0 < n) (p : ℕ) (h : n ∣ 10 ^ p) :
    n ∣ 10 ^ n := by
  have h25 : n ∣ 2 ^ p * 5 ^ p := by
    rw [← Nat.mul_pow]
    exact h
  obtain ⟨a, b, ha, hb, hab⟩ := Nat.dvd_mul.mp h25
  obtain ⟨i, _, hia⟩ := (Nat.dvd_prime_pow Nat.prime_two).mp ha
  obtain ⟨j, _, hjb⟩ := (Nat.dvd_prime_pow Nat.prime_five).mp hb
  subst hia hjb
  subst hab
  have h2n : 2 ^ i ≤ 2 ^ i * 5 ^ j :=
    Nat.le_mul_of_pos_right _ (Nat.pos_pow_of_pos j (by norm_num))
  have h5n : 5 ^ j ≤ 2 ^ i * 5 ^ j :=
    Nat.le_mul_of_pos_left _ (Nat.pos_pow_of_pos i (by norm_num))
  have hi2 : i < 2 ^ i := Nat.lt_two_pow i
  have hj5 : j < 5 ^ j := lt_of_lt_of_le (Nat.lt_two_pow j)
    (Nat.pow_le_pow_left (by norm_num) j)
  have h10 : (10 : ℕ) ^ (2 ^ i * 5 ^ j) = 2 ^ (2 ^ i * 5 ^ j) * 5 ^ (2 ^ i * 5 ^ j) := by
    rw [← Nat.mul_pow]
  rw [h10]
  exact mul_dvd_mul (pow_dvd_pow 2 (by omega)) (pow_dvd_pow 5 (by omega))

lemma mul_pow_den_one_of_dvd (q : ℚ) (k : ℕ) (h : q.den ∣ 10 ^ k) :
    (q * 10 ^ k).den = 1 := by
  obtain ⟨c, hc⟩ := h
  have h10 : ((10 : ℚ)) ^ k = (q.den : ℚ) * (c : ℚ) := by
    exact_mod_cast congrArg (fun n : ℕ => (n : ℚ)) hc
  have hz : q * 10 ^ k = ((q.num * c : ℤ) : ℚ) := by
    rw [h10, ← mul_assoc, Rat.mul_den_eq_num]
    push_cast
    ring
  rw [hz, Rat.den_intCast]

lemma jsToString_eq (q : ℚ) (p : ℕ) (h : (q * 10 ^ p).den = 1) :
    ∃ k, k ≤ p ∧ (q * 10 ^ k).den = 1 ∧
      jsToString q = some ((if q < 0 then ['-'] else []) ++
        natChars ((|q| * 10 ^ k).num.toNat / 10 ^ k) ++
        (if k = 0 then [] else
          '.' :: fracChars k ((|q| * 10 ^ k).num.toNat % 10 ^ k))) := by
  have hd1 : q.den ∣ 10 ^ p := den_dvd_pow_den q p h
  have hdn : q.den ∣ 10 ^ q.den := den_dvd_self_pow q.den q.pos p hd1
  have hpredden : (fun k => decide ((q * (10 : ℚ) ^ k).den = 1)) q.den = true :=
    decide_eq_true (mul_pow_den_one_of_dvd q q.den hdn)
  have hsome : ((List.range (q.den + 1)).find?
      (fun k => decide ((q * (10 : ℚ) ^ k).den = 1))).isSome :=
    List.find?_isSome.mpr ⟨q.den, by simp, hpredden⟩
  obtain ⟨k, hk⟩ := Option.isSome_iff_exists.mp hsome
  obtain ⟨hpk, hmin⟩ := find?_range_min _ _ k hk
  have hkden : (q * 10 ^ k).den = 1 := of_decide_eq_true hpk
  have hkp : k ≤ p := by
    by_contra hlt
    push_neg at hlt
    have := hmin p hlt
    rw [decide_eq_true h] at this
    exact Bool.noConfusion this
  refine ⟨k, hkp, hkden, ?_⟩
  unfold jsToString
  rw [hk]
  rfl

end Odo

namespace Odo

lemma tokensText_foldl_spacers (sp : List Char) :
    ∀ toks : List Token,
      tokensText (sp.foldl (fun ts c => Token.spacer c .plain :: ts) toks) =
        sp.reverse ++ tokensText toks := by
  induction sp with
  | nil => intro toks; simp
  | cons a t ih =>
    intro toks
    show tokensText (t.foldl _ (Token.spacer a .plain :: toks)) = _
    rw [ih (Token.spacer a .plain :: toks), tokensText_cons]
    simp [tokenText]

lemma addDigitTok_digit_false (fullRep : List Char) (radix c : Char)
    (hcd : c ≠ '.') (hcm : c ≠ '-')
    (rep : List Char) (toks : List Token) (cnt : ℕ) :
    addDigitTok fullRep radix c false (rep, toks, cnt) =
      some (rep, Token.col cnt [c] :: toks, cnt + 1) := by
  simp only [addDigitTok]
  rw [if_neg hcm, if_neg hcd, if_neg (by simp)]

lemma addDigitTok_digit_true (fullRep : List Char) (radix c : Char)
    (hfull : ∀ x ∈ fullRep, x ≠ 'd' → strippedChar x = true ∧ x ≠ radix)
    (hd : 'd' ∈ fullRep)
    (hc : isDigitChar c = true)
    (rep : List Char) (toks : List Token) (cnt : ℕ)
    (hrep : ∀ x ∈ rep, x ≠ 'd' → strippedChar x = true ∧ x ≠ radix) :
    ∃ (rep2 : List Char) (sp : List Char),
      addDigitTok fullRep radix c true (rep, toks, cnt) =
        some (rep2, Token.col cnt [c] ::
          sp.foldl (fun ts x => Token.spacer x .plain :: ts) toks, cnt + 1) ∧
      (∀ x ∈ sp, strippedChar x = true ∧ x ≠ radix) ∧
      (∀ x ∈ rep2, x ≠ 'd' → strippedChar x = true ∧ x ≠ radix) := by
  obtain ⟨hstr, hcd, hcm, _, _⟩ := isDigitChar_props c hc
  rcases hcr : consumeRev rep.reverse with ⟨sp1, o⟩
  cases o with
  | some rem =>
    refine ⟨rem.reverse, sp1, ?_, ?_, ?_⟩
    · simp only [addDigitTok]
      rw [if_neg hcm, if_neg hcd, if_pos trivial, hcr]
    · intro x hx
      have hm := consumeRev_sp_mem rep.reverse x (by rw [hcr]; exact hx)
      exact hrep x (List.mem_reverse.mp hm.1) hm.2
    · intro x hx hxd
      have hm := consumeRev_rem_mem rep.reverse rem (by rw [hcr]) x
        (List.mem_reverse.mp hx)
      exact hrep x (List.mem_reverse.mp hm) hxd
  | none =>
    have hs := consumeRev_isSome fullRep.reverse (List.mem_reverse.mpr hd)
    rcases hfr : consumeRev fullRep.reverse with ⟨sp2, o2⟩
    rw [hfr] at hs
    cases o2 with
    | none => exact absurd hs (by simp)
    | some rem =>
      refine ⟨rem.reverse, sp1 ++ sp2, ?_, ?_, ?_⟩
      · simp only [addDigitTok]
        rw [if_neg hcm, if_neg hcd, if_pos trivial, hcr, hfr]
      · intro x hx
        rcases List.mem_append.mp hx with h1 | h1
        · have hm := consumeRev_sp_mem rep.reverse x (by rw [hcr]; exact h1)
          exact hrep x (List.mem_reverse.mp hm.1) hm.2
        · have hm := consumeRev_sp_mem fullRep.reverse x (by rw [hfr]; exact h1)
          exact hfull x (List.mem_reverse.mp hm.1) hm.2
      · intro x hx hxd
        have hm := consumeRev_rem_mem fullRep.reverse rem (by rw [hfr]) x
          (List.mem_reverse.mp hx)
        exact hfull x (List.mem_reverse.mp hm) hxd

lemma formatDigitsLoop_digits_false (fullRep : List Char) (radix : Char) :
    ∀ (cs : List Char) (rep : List Char) (toks : List Token) (cnt : ℕ),
    (∀ c ∈ cs, isDigitChar c = true) →
    ∃ toks2, formatDigitsLoop fullRep radix cs false (rep, toks, cnt) =
        some (rep, toks2, cnt + cs.length) ∧
      tokensText toks2 = cs.reverse ++ tokensText toks := by
  intro cs
  induction cs with
  | nil => intro rep toks cnt _; exact ⟨toks, rfl, by simp⟩
  | cons c cs ih =>
    intro rep toks cnt hcs
    have hc := hcs c (by simp)
    obtain ⟨_, hcd, hcm, _, _⟩ := isDigitChar_props c hc
    obtain ⟨toks2, heq, htext⟩ :=
      ih rep (Token.col cnt [c] :: toks) (cnt + 1)
        (fun x hx => hcs x (by simp [hx]))
    refine ⟨toks2, ?_, ?_⟩
    · have hlen : cnt + (c :: cs).length = cnt + 1 + cs.length := by
        simp [List.length_cons]
        omega
      rw [hlen]
      show formatDigitsLoop fullRep radix (c :: cs) false (rep, toks, cnt) = _
      simp only [formatDigitsLoop]
      rw [if_neg hcd, addDigitTok_digit_false fullRep radix c hcd hcm]
      exact heq
    · rw [htext, tokensText_cons]
      simp [tokenText]

lemma formatDigitsLoop_digits_true (fullRep : List Char) (radix : Char)
    (hfull : ∀ x ∈ fullRep, x ≠ 'd' → strippedChar x = true ∧ x ≠ radix)
    (hd : 'd' ∈ fullRep) :
    ∀ (cs : List Char) (rep : List Char) (toks : List Token) (cnt : ℕ),
    (∀ c ∈ cs, isDigitChar c = true) →
    (∀ x ∈ rep, x ≠ 'd' → strippedChar x = true ∧ x ≠ radix) →
    ∃ rep2 toks2 cnt2 mix,
      formatDigitsLoop fullRep radix cs true (rep, toks, cnt) =
        some (rep2, toks2, cnt2) ∧
      tokensText toks2 = mix ++ tokensText toks ∧
      mix.filter (fun c => !strippedChar c) = cs.reverse ∧
      (∀ x ∈ mix, isDigitChar x = true ∨ (strippedChar x = true ∧ x ≠ radix)) ∧
      (∀ x ∈ rep2, x ≠ 'd' → strippedChar x = true ∧ x ≠ radix) := by
  intro cs
  induction cs with
  | nil =>
    intro rep toks cnt _ hrep
    exact ⟨rep, toks, cnt, [], rfl, by simp, rfl, by simp, hrep⟩
  | cons c cs ih =>
    intro rep toks cnt hcs hrep
    have hc := hcs c (by simp)
    obtain ⟨hstr, hcd, hcm, _, _⟩ := isDigitChar_props c hc
    obtain ⟨rep1, sp, heq1, hsp, hrep1⟩ :=
      addDigitTok_digit_true fullRep radix c hfull hd hc rep toks cnt hrep
    obtain ⟨rep2, toks2, cnt2, mix, heq2, htext, hfil, hmix, hrep2⟩ :=
      ih rep1
        (Token.col cnt [c] ::
          sp.foldl (fun ts x => Token.spacer x .plain :: ts) toks)
        (cnt + 1) (fun x hx => hcs x (by simp [hx])) hrep1
    refine ⟨rep2, toks2, cnt2, mix ++ c :: sp.reverse, ?_, ?_, ?_, ?_, hrep2⟩
    · show formatDigitsLoop fullRep radix (c :: cs) true (rep, toks, cnt) = _
      simp only [formatDigitsLoop]
      rw [if_neg hcd, heq1]
      exact heq2
    · rw [htext, tokensText_cons, tokensText_foldl_spacers]
      simp [tokenText]
    · rw [List.filter_append, hfil]
      have h1 : (c :: sp.reverse).filter (fun x => !strippedChar x) = [c] := by
        rw [List.filter_cons_of_pos (by simp [hstr])]
        rw [List.filter_eq_nil.mpr (fun x hx => by
          simp [(hsp x (List.mem_reverse.mp hx)).1])]
      rw [h1]
      simp
    · intro x hx
      rcases List.mem_append.mp hx with h1 | h1
      · exact hmix x h1
      · rcases List.mem_cons.mp h1 with h2 | h2
        · subst h2; exact Or.inl hc
        · exact Or.inr (hsp x (List.mem_reverse.mp h2))

lemma formatDigitsLoop_append (f : List Char) (r : Char) :
    ∀ (cs1 cs2 : List Char) (wp : Bool) (st : List Char × List Token × ℕ),
    '.' ∉ cs1 →
    formatDigitsLoop f r (cs1 ++ cs2) wp st =
      (formatDigitsLoop f r cs1 wp st).bind (formatDigitsLoop f r cs2 wp) := by
  intro cs1
  induction cs1 with
  | nil => intro cs2 wp st _; rfl
  | cons c t ih =>
    intro cs2 wp st hdot
    have hcd : ¬ (c = '.') := fun h => hdot (by simp [h])
    have hL : formatDigitsLoop f r ((c :: t) ++ cs2) wp st =
        match addDigitTok f r c wp st with
        | none => none
        | some st2 => formatDigitsLoop f r (t ++ cs2) wp st2 := by
      show formatDigitsLoop f r (c :: (t ++ cs2)) wp st = _
      simp only [formatDigitsLoop]
      rw [if_neg hcd]
    have hR : formatDigitsLoop f r (c :: t) wp st =
        match addDigitTok f r c wp st with
        | none => none
        | some st2 => formatDigitsLoop f r t wp st2 := by
      simp only [formatDigitsLoop]
      rw [if_neg hcd]
    rw [hL, hR]
    cases had : addDigitTok f r c wp st with
    | none => rfl
    | some st2 =>
      show formatDigitsLoop f r (t ++ cs2) wp st2 = _
      rw [ih cs2 wp st2 (fun h => hdot (by simp [h]))]

lemma formatDigitsLoop_dot (f : List Char) (r : Char) (wp : Bool)
    (rep : List Char) (toks : List Token) (cnt : ℕ) :
    formatDigitsLoop f r ['.'] wp (rep, toks, cnt) =
      some (rep, Token.spacer r .radix :: toks, cnt) := by
  rfl

lemma formatDigitsLoop_neg_char (f : List Char) (r : Char) (wp : Bool)
    (rep : List Char) (toks : List Token) (cnt : ℕ) :
    formatDigitsLoop f r ['-'] wp (rep, toks, cnt) =
      some (rep, Token.spacer '-' .negation :: toks, cnt) := by
  rfl

end Odo

namespace Odo

lemma digit_ne_radix (radix c : Char) (hrx : isDigitChar radix = false)
    (hc : isDigitChar c = true) : c ≠ radix := by
  intro h
  subst h
  rw [hc] at hrx
  exact Bool.noConfusion hrx

lemma filter_digits_self (l : List Char) (hl : ∀ c ∈ l, isDigitChar c = true) :
    l.filter (fun c => !strippedChar c) = l :=
  List.filter_eq_self.mpr (fun c hc => by
    simp [(isDigitChar_props c (hl c hc)).1])

lemma sign_append_filter (neg : Bool) (mix ipc : List Char)
    (hfil : mix.filter (fun c => !strippedChar c) = ipc) :
    ((if neg then ['-'] else []) ++ mix).filter (fun c => !strippedChar c) =
      (if neg then ['-'] else []) ++ ipc := by
  rw [List.filter_append, hfil]
  congr 1
  cases neg
  · rfl
  · decide

lemma radix_not_mem_sign_mix (fmt : FormatObject) (neg : Bool) (mix : List Char)
    (hrneg : radixChar fmt ≠ '-') (hrx : isDigitChar (radixChar fmt) = false)
    (hmix : ∀ x ∈ mix, isDigitChar x = true ∨
      (strippedChar x = true ∧ x ≠ radixChar fmt)) :
    radixChar fmt ∉ (if neg then ['-'] else []) ++ mix := by
  intro h
  rcases List.mem_append.mp h with h1 | h1
  · cases neg with
    | true =>
      simp at h1
      exact hrneg h1
    | false => simp at h1
  · rcases hmix _ h1 with h2 | h2
    · exact digit_ne_radix (radixChar fmt) (radixChar fmt) hrx h2 rfl
    · exact h2.2 rfl

lemma lt_not_mem_sign_ipc (neg : Bool) (ipc : List Char)
    (hip : ∀ c ∈ ipc, isDigitChar c = true) :
    '<' ∉ (if neg then ['-'] else []) ++ ipc := by
  intro h
  rcases List.mem_append.mp h with h1 | h1
  · cases neg with
    | true => simp at h1
    | false => simp at h1
  · exact (isDigitChar_props '<' (hip '<' h1)).2.2.2.1 rfl

lemma cleanString_mix_nofrac (fmt : FormatObject) (neg : Bool)
    (ipc mix : List Char)
    (hrneg : radixChar fmt ≠ '-') (hrx : isDigitChar (radixChar fmt) = false)
    (hip : ∀ c ∈ ipc, isDigitChar c = true)
    (hmix : ∀ x ∈ mix, isDigitChar x = true ∨
      (strippedChar x = true ∧ x ≠ radixChar fmt))
    (hfil : mix.filter (fun c => !strippedChar c) = ipc) :
    cleanString fmt ((if neg then ['-'] else []) ++ mix) =
      (if neg then ['-'] else []) ++ ipc := by
  simp only [cleanString]
  rw [replaceFirstSeq_of_head_not_mem _ _ _ _
    (radix_not_mem_sign_mix fmt neg mix hrneg hrx hmix)]
  rw [sign_append_filter neg mix ipc hfil]
  rw [show radixMarker = '<' :: ['r', 'a', 'd', 'i', 'x', '>'] from rfl]
  exact replaceFirstSeq_of_head_not_mem _ _ _ _ (lt_not_mem_sign_ipc neg ipc hip)

lemma cleanString_mix_frac (fmt : FormatObject) (neg : Bool)
    (ipc mix fpd : List Char)
    (hrneg : radixChar fmt ≠ '-') (hrx : isDigitChar (radixChar fmt) = false)
    (hip : ∀ c ∈ ipc, isDigitChar c = true)
    (hfpd : ∀ c ∈ fpd, isDigitChar c = true)
    (hmix : ∀ x ∈ mix, isDigitChar x = true ∨
      (strippedChar x = true ∧ x ≠ radixChar fmt))
    (hfil : mix.filter (fun c => !strippedChar c) = ipc) :
    cleanString fmt ((if neg then ['-'] else []) ++ mix ++
        radixChar fmt :: fpd) =
      (if neg then ['-'] else []) ++ ipc ++ '.' :: fpd := by
  simp only [cleanString]
  have h1 := replaceFirstSeq_single_at (radixChar fmt) radixMarker
    ((if neg then ['-'] else []) ++ mix) fpd
    (radix_not_mem_sign_mix fmt neg mix hrneg hrx hmix)
  rw [h1]
  have h2 : (((if neg then ['-'] else []) ++ mix) ++ radixMarker ++ fpd).filter
      (fun c => !strippedChar c) =
      ((if neg then ['-'] else []) ++ ipc) ++ radixMarker ++ fpd := by
    rw [List.filter_append, List.filter_append]
    rw [sign_append_filter neg mix ipc hfil]
    rw [show radixMarker.filter (fun c => !strippedChar c) = radixMarker
      from by decide]
    rw [filter_digits_self fpd hfpd]
  rw [h2]
  have h3 := replaceFirstSeq_seq_at '<' ['r', 'a', 'd', 'i', 'x', '>'] ['.']
    ((if neg then ['-'] else []) ++ ipc) fpd (lt_not_mem_sign_ipc neg ipc hip)
  rw [show radixMarker = '<' :: ['r', 'a', 'd', 'i', 'x', '>'] from rfl]
  rw [h3]
  simp [List.append_assoc]

end Odo

namespace Odo

lemma formatDigitsLoop_dot_cons (f : List Char) (r : Char) (rest : List Char)
    (wp : Bool) (rep : List Char) (toks : List Token) (cnt : ℕ) :
    formatDigitsLoop f r ('.' :: rest) wp (rep, toks, cnt) =
      formatDigitsLoop f r rest true (rep, Token.spacer r .radix :: toks, cnt) := by
  simp only [formatDigitsLoop]
  rw [if_pos trivial]
  simp only [addDigitTok]
  rw [if_pos trivial, if_neg (show ('.' : Char) ≠ '-' from by decide)]

lemma formatDigitsModel_clean (fmt : FormatObject)
    (hd : 'd' ∈ fmt.repeating)
    (hsep : ∀ c ∈ fmt.repeating, c ≠ 'd' →
      strippedChar c = true ∧ c ≠ radixChar fmt)
    (hrx : isDigitChar (radixChar fmt) = false)
    (hrneg : radixChar fmt ≠ '-')
    (neg : Bool) (ipc fpc : List Char)
    (hip : ∀ c ∈ ipc, isDigitChar c = true)
    (hfp : ∀ c ∈ fpc, isDigitChar c = true)
    (hlen : fpc.length ≤ fmt.precision)
    (hp0 : fmt.precision = 0 → fpc = []) :
    ∃ st : List Char × List Token,
      formatDigitsModel fmt ((if neg then ['-'] else []) ++ ipc ++
        (if fpc.isEmpty then [] else '.' :: fpc)) = some st ∧
      cleanString fmt (tokensText st.2) =
        (if neg then ['-'] else []) ++ ipc ++
          (if fmt.precision = 0 then [] else
            '.' :: (fpc ++ List.replicate (fmt.precision - fpc.length) '0')) := by
  have hipr : ∀ c ∈ ipc.reverse, isDigitChar c = true :=
    fun c hc => hip c (List.mem_reverse.mp hc)
  have hipdot : '.' ∉ ipc := fun h => absurd (hip '.' h) (by decide)
  have hfpdot : '.' ∉ fpc := fun h => absurd (hfp '.' h) (by decide)
  have hsigndot : '.' ∉ (if neg then ['-'] else []) ++ ipc := by
    intro h
    rcases List.mem_append.mp h with h1 | h1
    · cases neg with
      | true => simp at h1
      | false => simp at h1
    · exact hipdot h1
  by_cases hpz : fmt.precision = 0
  · -- precision 0: no fractional part at all
    have hfpe : fpc = [] := hp0 hpz
    subst hfpe
    have hwp : (decide (fmt.precision = 0)) = true := by simp [hpz]
    have hpad : preservePrecision fmt.precision
        ((if neg then ['-'] else []) ++ ipc ++
          (if ([] : List Char).isEmpty then [] else '.' :: ([] : List Char))) =
        (if neg then ['-'] else []) ++ ipc := by
      unfold preservePrecision
      rw [if_pos hpz]
      simp
    obtain ⟨rep2, toks2, cnt2, mix, heq, htext, hfil, hmix, _⟩ :=
      formatDigitsLoop_digits_true fmt.repeating (radixChar fmt) hsep hd
        ipc.reverse fmt.repeating [] 0 hipr hsep
    have hfil2 : mix.filter (fun c => !strippedChar c) = ipc := by
      rw [hfil, List.reverse_reverse]
    have htext2 : tokensText toks2 = mix := by
      rw [htext]
      simp [tokensText]
    cases neg with
    | false =>
      have hrev : (((if false then ['-'] else []) ++ ipc)).reverse =
          ipc.reverse := by simp
      refine ⟨(rep2, toks2), ?_, ?_⟩
      · unfold formatDigitsModel
        rw [hpad, hrev, hwp, heq]
      · show cleanString fmt (tokensText toks2) = _
        rw [htext2, if_pos hpz]
        have h := cleanString_mix_nofrac fmt false ipc mix hrneg hrx hip hmix hfil2
        simpa using h
    | true =>
      have hrev : (((if true then ['-'] else []) ++ ipc)).reverse =
          ipc.reverse ++ ['-'] := by simp
      have hloop : formatDigitsLoop fmt.repeating (radixChar fmt)
          (ipc.reverse ++ ['-']) true (fmt.repeating, [], 0) =
          some (rep2, Token.spacer '-' .negation :: toks2, cnt2) := by
        rw [formatDigitsLoop_append fmt.repeating (radixChar fmt)
          ipc.reverse ['-'] true (fmt.repeating, [], 0)
          (fun h => hipdot (List.mem_reverse.mp h))]
        rw [heq]
        simp only [Option.some_bind]
        exact formatDigitsLoop_neg_char _ _ _ _ _ _
      refine ⟨(rep2, Token.spacer '-' .negation :: toks2), ?_, ?_⟩
      · unfold formatDigitsModel
        rw [hpad, hrev, hwp, hloop]
      · show cleanString fmt (tokensText (Token.spacer '-' .negation :: toks2)) = _
        rw [tokensText_cons, htext2, if_pos hpz]
        have h := cleanString_mix_nofrac fmt true ipc mix hrneg hrx hip hmix hfil2
        simpa [tokenText] using h
  · -- nonzero precision: canonical padded fractional part
    have hwp : (decide (fmt.precision = 0)) = false := by simp [hpz]
    have hfpd : ∀ c ∈ fpc ++ List.replicate (fmt.precision - fpc.length) '0',
        isDigitChar c = true := by
      intro c hc
      rcases List.mem_append.mp hc with h1 | h1
      · exact hfp c h1
      · rw [List.eq_of_mem_replicate h1]; decide
    have hpad : preservePrecision fmt.precision
        ((if neg then ['-'] else []) ++ ipc ++
          (if fpc.isEmpty then [] else '.' :: fpc)) =
        ((if neg then ['-'] else []) ++ ipc) ++
          '.' :: (fpc ++ List.replicate (fmt.precision - fpc.length) '0') := by
      by_cases hfe : fpc = []
      · subst hfe
        have h1 : ((if neg then ['-'] else []) ++ ipc ++
            (if ([] : List Char).isEmpty then [] else '.' :: ([] : List Char))) =
            (if neg then ['-'] else []) ++ ipc := by simp
        rw [h1, preservePrecision_no_dot fmt.precision hpz _ hsigndot]
        simp
      · have h1 : ((if neg then ['-'] else []) ++ ipc ++
            (if fpc.isEmpty then [] else '.' :: fpc)) =
            ((if neg then ['-'] else []) ++ ipc) ++ '.' :: fpc := by
          rw [show (if fpc.isEmpty then ([] : List Char) else '.' :: fpc) =
            '.' :: fpc from by rw [if_neg (by simpa using hfe)]]
        rw [h1, preservePrecision_at_dot fmt.precision hpz _ fpc hsigndot hfpdot]
    -- the reversed padded string, split for the column loop
    obtain ⟨toksA, heqA, htextA⟩ :=
      formatDigitsLoop_digits_false fmt.repeating (radixChar fmt)
        (fpc ++ List.replicate (fmt.precision - fpc.length) '0').reverse
        fmt.repeating [] 0
        (fun c hc => hfpd c (List.mem_reverse.mp hc))
    obtain ⟨rep2, toks2, cnt2, mix, heq, htext, hfil, hmix, _⟩ :=
      formatDigitsLoop_digits_true fmt.repeating (radixChar fmt) hsep hd
        ipc.reverse fmt.repeating
        (Token.spacer (radixChar fmt) .radix :: toksA)
        (0 + (fpc ++ List.replicate (fmt.precision - fpc.length) '0').reverse.length)
        hipr hsep
    have hfil2 : mix.filter (fun c => !strippedChar c) = ipc := by
      rw [hfil, List.reverse_reverse]
    have htextA2 : tokensText toksA =
        fpc ++ List.replicate (fmt.precision - fpc.length) '0' := by
      rw [htextA]
      simp [tokensText]
    have htext2 : tokensText toks2 =
        mix ++ radixChar fmt ::
          (fpc ++ List.replicate (fmt.precision - fpc.length) '0') := by
      rw [htext, tokensText_cons, htextA2]
      simp [tokenText]
    have hloopfront : ∀ rest : List Char,
        formatDigitsLoop fmt.repeating (radixChar fmt)
          ((fpc ++ List.replicate (fmt.precision - fpc.length) '0').reverse ++
            ('.' :: rest)) false (fmt.repeating, [], 0) =
        formatDigitsLoop fmt.repeating (radixChar fmt) rest true
          (fmt.repeating, Token.spacer (radixChar fmt) .radix :: toksA,
            0 + (fpc ++ List.replicate (fmt.precision - fpc.length) '0').reverse.length) := by
      intro rest
      rw [formatDigitsLoop_append fmt.repeating (radixChar fmt)
        (fpc ++ List.replicate (fmt.precision - fpc.length) '0').reverse
        ('.' :: rest) false (fmt.repeating, [], 0)
        (fun h => absurd (hfpd '.' (List.mem_reverse.mp h)) (by decide))]
      rw [heqA]
      simp only [Option.some_bind]
      rw [formatDigitsLoop_dot_cons]
    cases neg with
    | false =>
      have hrev : (((if false then ['-'] else []) ++ ipc) ++
          '.' :: (fpc ++ List.replicate (fmt.precision - fpc.length) '0')).reverse =
          (fpc ++ List.replicate (fmt.precision - fpc.length) '0').reverse ++
            ('.' :: ipc.reverse) := by
        simp
      refine ⟨(rep2, toks2), ?_, ?_⟩
      · unfold formatDigitsModel
        rw [hpad, hrev, hwp, hloopfront ipc.reverse, heq]
      · show cleanString fmt (tokensText toks2) = _
        rw [htext2]
        have h := cleanString_mix_frac fmt false ipc mix
          (fpc ++ List.replicate (fmt.precision - fpc.length) '0')
          hrneg hrx hip hfpd hmix hfil2
        rw [if_neg hpz]
        simpa using h
    | true =>
      have hrev : (((if true then ['-'] else []) ++ ipc) ++
          '.' :: (fpc ++ List.replicate (fmt.precision - fpc.length) '0')).reverse =
          (fpc ++ List.replicate (fmt.precision - fpc.length) '0').reverse ++
            ('.' :: (ipc.reverse ++ ['-'])) := by
        simp
      have hloop : formatDigitsLoop fmt.repeating (radixChar fmt)
          (ipc.reverse ++ ['-']) true (fmt.repeating,
            Token.spacer (radixChar fmt) .radix :: toksA,
            0 + (fpc ++ List.replicate (fmt.precision - fpc.length) '0').reverse.length) =
          some (rep2, Token.spacer '-' .negation :: toks2, cnt2) := by
        rw [formatDigitsLoop_append fmt.repeating (radixChar fmt)
          ipc.reverse ['-'] true (fmt.repeating,
            Token.spacer (radixChar fmt) .radix :: toksA,
            0 + (fpc ++ List.replicate (fmt.precision - fpc.length)
              '0').reverse.length)
          (fun h => hipdot (List.mem_reverse.mp h))]
        rw [heq]
        simp only [Option.some_bind]
        exact formatDigitsLoop_neg_char _ _ _ _ _ _
      refine ⟨(rep2, Token.spacer '-' .negation :: toks2), ?_, ?_⟩
      · unfold formatDigitsModel
        rw [hpad, hrev, hwp, hloopfront (ipc.reverse ++ ['-']), hloop]
      · show cleanString fmt
          (tokensText (Token.spacer '-' .negation :: toks2)) = _
        rw [tokensText_cons, htext2]
        have h := cleanString_mix_frac fmt true ipc mix
          (fpc ++ List.replicate (fmt.precision - fpc.length) '0')
          hrneg hrx hip hfpd hmix hfil2
        rw [if_neg hpz]
        simpa [tokenText] using h

end Odo

namespace Odo

lemma jsParseFloat_canonical (neg : Bool) (ipd fpd : List ℕ)
    (hip : ∀ d ∈ ipd, d < 10) (hfp : ∀ d ∈ fpd, d < 10) (hne : ipd ≠ []) :
    jsParseFloat ((if neg then ['-'] else []) ++ digitChars ipd ++
        (if fpd.isEmpty then [] else '.' :: digitChars fpd)) =
      some ((if neg then (-1 : ℚ) else 1) *
        ((digitsToNat ipd : ℚ) + (digitsToNat fpd : ℚ) / 10 ^ fpd.length)) := by
  have htailhead : ∀ c, (if fpd.isEmpty then ([] : List Char)
      else '.' :: digitChars fpd).head? = some c → isDigitChar c = false := by
    intro c hc
    by_cases hfe : fpd.isEmpty
    · rw [if_pos hfe] at hc; simp at hc
    · rw [if_neg hfe] at hc
      simp at hc
      subst hc
      decide
  have hsp := spanDigits_digitChars _ htailhead ipd hip
  obtain ⟨d0, ds, rfl⟩ : ∃ d0 ds, ipd = d0 :: ds := by
    cases ipd with
    | nil => exact absurd rfl hne
    | cons a b => exact ⟨a, b, rfl⟩
  have hC : isDigitChar (Char.ofNat (48 + d0)) = true :=
    digitChar_is_digit d0 (hip d0 (by simp))
  have hsp2 : spanDigits (Char.ofNat (48 + d0) :: (digitChars ds ++
      (if fpd.isEmpty then [] else '.' :: digitChars fpd))) =
      (d0 :: ds, (if fpd.isEmpty then [] else '.' :: digitChars fpd)) := by
    rw [show Char.ofNat (48 + d0) :: (digitChars ds ++
      (if fpd.isEmpty then [] else '.' :: digitChars fpd)) =
      digitChars (d0 :: ds) ++
        (if fpd.isEmpty then [] else '.' :: digitChars fpd) from rfl]
    exact hsp
  cases neg with
  | true =>
    show jsParseFloat ('-' :: (Char.ofNat (48 + d0) :: (digitChars ds ++
        (if fpd.isEmpty then [] else '.' :: digitChars fpd)))) = _
    simp only [jsParseFloat]
    rw [List.dropWhile_cons, if_neg (by decide)]
    rw [show (match '-' :: (Char.ofNat (48 + d0) :: (digitChars ds ++
        (if fpd.isEmpty then [] else '.' :: digitChars fpd))) with
      | '-' :: r => ((-1 : ℚ), r)
      | '+' :: r => ((1 : ℚ), r)
      | r => ((1 : ℚ), r)) = ((-1 : ℚ), Char.ofNat (48 + d0) :: (digitChars ds ++
        (if fpd.isEmpty then [] else '.' :: digitChars fpd))) from rfl]
    rw [hsp2]
    by_cases hfe : fpd.isEmpty
    · obtain rfl : fpd = [] := by simpa using hfe
      norm_num [digitsToNat]
    · obtain ⟨f0, fs, rfl⟩ : ∃ f0 fs, fpd = f0 :: fs := by
        cases fpd with
        | nil => simp at hfe
        | cons a b => exact ⟨a, b, rfl⟩
      rw [if_neg hfe]
      split
      next r2 heq =>
        obtain rfl : r2 = digitChars (f0 :: fs) := by
          simpa using heq.symm
        rw [show digitChars (f0 :: fs) =
          digitChars (f0 :: fs) ++ [] from by simp]
        rw [spanDigits_digitChars [] (by simp) (f0 :: fs) hfp]
        norm_num
      next x heq =>
        exact absurd heq (by simp)
  | false =>
    show jsParseFloat (Char.ofNat (48 + d0) :: (digitChars ds ++
        (if fpd.isEmpty then [] else '.' :: digitChars fpd))) = _
    simp only [jsParseFloat]
    rw [List.dropWhile_cons, if_neg (by
      intro h
      simp only [Bool.or_eq_true, decide_eq_true_eq] at h
      rcases h with ((h | h) | h) | h <;>
        (rw [h] at hC; exact absurd hC (by decide)))]
    have hsig : (match Char.ofNat (48 + d0) :: (digitChars ds ++
        (if fpd.isEmpty then [] else '.' :: digitChars fpd)) with
      | '-' :: r => ((-1 : ℚ), r)
      | '+' :: r => ((1 : ℚ), r)
      | r => ((1 : ℚ), r)) =
        ((1 : ℚ), Char.ofNat (48 + d0) :: (digitChars ds ++
          (if fpd.isEmpty then [] else '.' :: digitChars fpd))) := by
      split
      next r heq =>
        injection heq with h1 h2
        rw [h1] at hC
        exact absurd hC (by decide)
      next r heq =>
        injection heq with h1 h2
        rw [h1] at hC
        exact absurd hC (by decide)
      next x h1 =>
        rfl
    rw [hsig, hsp2]
    by_cases hfe : fpd.isEmpty
    · obtain rfl : fpd = [] := by simpa using hfe
      norm_num [digitsToNat]
    · obtain ⟨f0, fs, rfl⟩ : ∃ f0 fs, fpd = f0 :: fs := by
        cases fpd with
        | nil => simp at hfe
        | cons a b => exact ⟨a, b, rfl⟩
      rw [if_neg hfe]
      split
      next r2 heq =>
        obtain rfl : r2 = digitChars (f0 :: fs) := by
          simpa using heq.symm
        rw [show digitChars (f0 :: fs) =
          digitChars (f0 :: fs) ++ [] from by simp]
        rw [spanDigits_digitChars [] (by simp) (f0 :: fs) hfp]
        norm_num
      next x heq =>
        exact absurd heq (by simp)

lemma round_den_one (v : ℚ) (p : ℕ) : (round v p * 10 ^ p).den = 1 := by
  unfold round jsMathRound
  rcases eq_or_ne p 0 with hp | hp
  · subst hp
    rw [if_pos rfl]
    simp [Rat.den_intCast]
  · rw [if_neg hp]
    have h : (⌊v * 10 ^ p + 1 / 2⌋ : ℚ) / 10 ^ p * 10 ^ p =
        (⌊v * 10 ^ p + 1 / 2⌋ : ℚ) := by
      field_simp
    rw [h, Rat.den_intCast]

lemma round_eq_self_of_den (q : ℚ) (p : ℕ) (h : (q * 10 ^ p).den = 1) :
    round q p = q := by
  have hm : ((q * 10 ^ p).num : ℚ) = q * 10 ^ p := (Rat.den_eq_one_iff _).mp h
  have hfl : ⌊q * 10 ^ p + 1 / 2⌋ = (q * 10 ^ p).num := by
    rw [← hm, Int.floor_int_add]
    norm_num
  unfold round jsMathRound
  rcases eq_or_ne p 0 with hp | hp
  · subst hp
    rw [if_pos rfl]
    simp only [pow_zero, mul_one] at hfl hm
    rw [hfl]
    exact hm
  · rw [if_neg hp, hfl, hm]
    field_simp

lemma numDigits_pos (n : ℕ) (h : n ≠ 0) : 0 < numDigits n := by
  cases n with
  | zero => exact absurd rfl h
  | succ m =>
    show 0 < digitsLen (m + 1) (m + 1)
    unfold digitsLen
    simp

lemma digitsBE_length (m d : ℕ) : (digitsBE m d).length = d := by
  simp [digitsBE]

end Odo

namespace Odo

lemma digitChars_append_zeros (fpd : List ℕ) (m : ℕ) :
    digitChars (fpd ++ List.replicate m 0) =
      digitChars fpd ++ List.replicate m '0' := by
  unfold digitChars
  rw [List.map_append, List.map_replicate]

/-- C3 (amended): the formatting round-trip `normalize(project(round(v,p)))
= round(v,p)` holds for every format whose grouping separators are strip
characters distinct from the radix symbol, and whose radix symbol is neither
a decimal digit nor `'-'`: projecting the rounded value through
`toString`/`preservePrecision`/`formatDigits` and normalizing the rendered
token text with `cleanValue` returns exactly the rounded value.  Formats
whose repeating pattern contains the radix symbol itself break the
round-trip (see the counterexample). -/
theorem format_roundtrip_normalizes (fmt : FormatObject) (v : ℚ)
    (hd : 'd' ∈ fmt.repeating)
    (hsep : ∀ c ∈ fmt.repeating, c ≠ 'd' →
      strippedChar c = true ∧ c ≠ radixChar fmt)
    (hrx : isDigitChar (radixChar fmt) = false)
    (hrneg : radixChar fmt ≠ '-') :
    ∃ s : List Char, projectedText fmt (round v fmt.precision) = some s ∧
      cleanValue fmt (.inl s) = round v fmt.precision := by
  have hden : (round v fmt.precision * 10 ^ fmt.precision).den = 1 :=
    round_den_one v fmt.precision
  obtain ⟨k, hkp, hkden, hstr⟩ :=
    jsToString_eq (round v fmt.precision) fmt.precision hden
  set q := round v fmt.precision with hqdef
  set N := (|q| * 10 ^ k).num.toNat with hNdef
  set I := N / 10 ^ k with hIdef
  set F := N % 10 ^ k with hFdef
  obtain ⟨ipd, hipdchars, hIdig, hipne, hIval⟩ :
      ∃ ipd, natChars I = digitChars ipd ∧ (∀ d ∈ ipd, d < 10) ∧
        ipd ≠ [] ∧ digitsToNat ipd = I := by
    by_cases hI : I = 0
    · refine ⟨[0], by rw [natChars, if_pos hI], ?_, by simp, by rw [hI]; rfl⟩
      intro d hd2
      simp at hd2
      omega
    · refine ⟨digitsBE I (numDigits I), by rw [natChars, if_neg hI],
        digitsBE_lt_ten I (numDigits I), ?_,
        digitsToNat_digitsBE (numDigits I) I (numDigits_lt I)⟩
      intro h
      have hl := congrArg List.length h
      rw [digitsBE_length] at hl
      exact absurd hl (by simpa using (numDigits_pos I hI).ne')
  have hFlt : F < 10 ^ k := Nat.mod_lt N (pow_pos (by norm_num) k)
  have hFval : digitsToNat (digitsBE F k) = F :=
    digitsToNat_digitsBE k F hFlt
  have hFdig : ∀ d ∈ digitsBE F k, d < 10 := digitsBE_lt_ten F k
  have hfplen : (digitChars (digitsBE F k)).length = k := by
    simp [digitChars, digitsBE_length]
  have hfracChars : fracChars k F = digitChars (digitsBE F k) := rfl
  set neg : Bool := decide (q < 0) with hneg
  have hsign : (if q < 0 then ['-'] else ([] : List Char)) =
      (if neg then ['-'] else []) := by
    by_cases hq : q < 0
    · rw [if_pos hq, if_pos (by rw [hneg]; simpa using hq)]
    · rw [if_neg hq, if_neg (by rw [hneg]; simpa using hq)]
  obtain ⟨st, hmodel, hclean⟩ := formatDigitsModel_clean fmt hd hsep hrx hrneg
    neg (digitChars ipd) (digitChars (digitsBE F k))
    (fun c hc => by
      obtain ⟨d2, hd2, rfl⟩ := List.mem_map.mp hc
      exact digitChar_is_digit d2 (hIdig d2 hd2))
    (fun c hc => by
      obtain ⟨d2, hd2, rfl⟩ := List.mem_map.mp hc
      exact digitChar_is_digit d2 (hFdig d2 hd2))
    (by rw [hfplen]; exact hkp)
    (by
      intro hp0
      have hk0 : k = 0 := by omega
      rw [hk0]
      rfl)
  have hfraccond : (if k = 0 then ([] : List Char) else '.' :: fracChars k F) =
      (if (digitChars (digitsBE F k)).isEmpty then []
        else '.' :: digitChars (digitsBE F k)) := by
    by_cases hk : k = 0
    · rw [if_pos hk, if_pos (by rw [hk]; rfl)]
    · have hne2 : digitChars (digitsBE F k) ≠ [] := by
        intro h
        have := congrArg List.length h
        rw [hfplen] at this
        exact hk (by simpa using this)
      rw [if_neg hk, if_neg (by simpa using hne2), hfracChars]
  have hstr2 : jsToString q = some ((if neg then ['-'] else []) ++
      digitChars ipd ++ (if (digitChars (digitsBE F k)).isEmpty then []
        else '.' :: digitChars (digitsBE F k))) := by
    rw [hstr]
    rw [hsign, hipdchars, hfraccond]
  refine ⟨tokensText st.2, ?_, ?_⟩
  · unfold projectedText
    rw [hstr2]
    simp only [Option.some_bind]
    rw [hmodel]
    rfl
  · simp only [cleanValue]
    rw [hclean]
    -- rewrite the cleaned text into the canonical parser input shape
    have hFPDchars : digitChars (digitsBE F k ++ List.replicate (fmt.precision - k) 0) =
        digitChars (digitsBE F k) ++
          List.replicate (fmt.precision - (digitChars (digitsBE F k)).length) '0' := by
      rw [digitChars_append_zeros, hfplen]
    have hFPDlen : (digitsBE F k ++ List.replicate (fmt.precision - k) 0).length =
        fmt.precision := by
      rw [List.length_append, digitsBE_length, List.length_replicate]
      omega
    have hFPDcond : (if fmt.precision = 0 then ([] : List Char) else
        '.' :: (digitChars (digitsBE F k) ++
          List.replicate (fmt.precision - (digitChars (digitsBE F k)).length) '0')) =
        (if (digitsBE F k ++ List.replicate (fmt.precision - k) 0).isEmpty then []
          else '.' :: digitChars (digitsBE F k ++
            List.replicate (fmt.precision - k) 0)) := by
      by_cases hp : fmt.precision = 0
      · rw [if_pos hp, if_pos (by
          rw [List.isEmpty_iff, ← List.length_eq_zero, hFPDlen, hp])]
      · have hne3 : (digitsBE F k ++ List.replicate (fmt.precision - k) 0) ≠ [] := by
          intro h
          have := congrArg List.length h
          rw [hFPDlen] at this
          exact hp (by simpa using this)
        rw [if_neg hp, if_neg (by simpa using hne3), hFPDchars]
    rw [hFPDcond]
    rw [jsParseFloat_canonical neg ipd
      (digitsBE F k ++ List.replicate (fmt.precision - k) 0) hIdig
      (by
        intro d hd2
        rcases List.mem_append.mp hd2 with h1 | h1
        · exact hFdig d h1
        · rw [List.eq_of_mem_replicate h1]; omega)
      hipne]
    simp only [Option.getD_some]
    -- evaluate the parsed value back to q
    have hzq : (((q * 10 ^ k).num : ℤ) : ℚ) = q * 10 ^ k :=
      (Rat.den_eq_one_iff _).mp hkden
    have habs : (N : ℚ) = |q| * 10 ^ k := by
      have h1 : |q| * 10 ^ k = |q * 10 ^ k| := by
        rw [abs_mul, abs_of_nonneg (by positivity : (0 : ℚ) ≤ 10 ^ k)]
      have h2 : |q * 10 ^ k| = ((|(q * 10 ^ k).num| : ℤ) : ℚ) := by
        conv_lhs => rw [← hzq]
        rw [Int.cast_abs]
      have h3 : (|q| * 10 ^ k).num = |(q * 10 ^ k).num| := by
        rw [h1, h2, Rat.num_intCast]
      have h4 : ((|(q * 10 ^ k).num|.toNat : ℕ) : ℚ) =
          ((|(q * 10 ^ k).num| : ℤ) : ℚ) := by
        rw [show ((|(q * 10 ^ k).num|.toNat : ℕ) : ℚ) =
          (((|(q * 10 ^ k).num|.toNat : ℕ) : ℤ) : ℚ) from by push_cast; ring]
        rw [Int.toNat_of_nonneg (abs_nonneg _)]
      rw [hNdef, h3, h4, ← h2, ← h1]
    have hIFN : (I : ℚ) * 10 ^ k + (F : ℚ) = (N : ℚ) := by
      have h := Nat.div_add_mod N (10 ^ k)
      have h2 : ((10 : ℚ)) ^ k * (I : ℚ) + (F : ℚ) = (N : ℚ) := by
        exact_mod_cast congrArg (fun n : ℕ => (n : ℚ)) h
      linarith
    have hvalabs : (digitsToNat ipd : ℚ) +
        (digitsToNat (digitsBE F k ++ List.replicate (fmt.precision - k) 0) : ℚ) /
          10 ^ (digitsBE F k ++ List.replicate (fmt.precision - k) 0).length =
        |q| := by
      rw [hIval, digitsToNat_append_zeros, hFval, hFPDlen]
      have h10 : (10 : ℚ) ^ fmt.precision = 10 ^ k * 10 ^ (fmt.precision - k) := by
        rw [← pow_add]
        congr 1
        omega
      have hk0 : ((10 : ℚ) ^ k) ≠ 0 := by positivity
      have hpk0 : ((10 : ℚ) ^ (fmt.precision - k)) ≠ 0 := by positivity
      have habs2 : |q| = (N : ℚ) / 10 ^ k := by
        rw [habs]
        field_simp
      rw [habs2, ← hIFN]
      push_cast
      rw [h10]
      field_simp
      ring
    rw [hvalabs]
    by_cases hq : q < 0
    · rw [if_pos (by rw [hneg]; simpa using hq)]
      rw [show (-1 : ℚ) * |q| = q from by rw [abs_of_neg hq]; ring]
      exact round_eq_self_of_den q fmt.precision hden
    · rw [if_neg (by rw [hneg]; simpa using hq)]
      rw [show (1 : ℚ) * |q| = q from by rw [abs_of_nonneg (not_lt.mp hq)]; ring]
      exact round_eq_self_of_den q fmt.precision hden

end Odo

namespace Odo

lemma jsToString_2469_half :
    jsToString ((2469 : ℚ) / 2) = some ['1', '2', '3', '4', '.', '5'] := by
  have hden : ((2469 : ℚ) / 2).den = 2 := by norm_num
  unfold jsToString
  rw [hden]
  rw [show List.range (2 + 1) = [0, 1, 2] from rfl]
  rw [List.find?_cons_of_neg _ (by
    simp only [decide_eq_true_eq]
    norm_num)]
  rw [List.find?_cons_of_pos _ (by
    simp only [decide_eq_true_eq]
    norm_num)]
  simp only [Option.map_some']
  have hnum : (|(2469 : ℚ) / 2| * 10 ^ (1 : ℕ)).num = 12345 := by
    rw [abs_of_pos (by norm_num : (0 : ℚ) < 2469 / 2)]
    norm_num
  rw [hnum]
  rw [if_neg (by norm_num : ¬ ((2469 : ℚ) / 2 < 0))]
  rw [if_neg (by norm_num : ¬ (1 : ℕ) = 0)]
  decide

/-- C3 counterexample: under the format `"(.ddd).dd"` — dot-grouping with a
dot radix, precision 2 — the value `1234.5` rounds to itself, projects to the
token text `"1.234.50"`, but `cleanValue` protects only the FIRST dot (the
grouping separator, not the radix mark), normalizes the text to `"1.23450"`,
and returns `1.23 ≠ 1234.5`: the round-trip `normalize(project(round(v,p)))
= round(v,p)` fails. -/
theorem format_roundtrip_counterexample :
    round (1234.5 : ℚ) 2 = 2469 / 2 ∧
    projectedText
      { repeating := ['.', 'd', 'd', 'd'], radix := some '.', precision := 2 }
      (round (1234.5 : ℚ) 2) =
      some ['1', '.', '2', '3', '4', '.', '5', '0'] ∧
    cleanValue
      { repeating := ['.', 'd', 'd', 'd'], radix := some '.', precision := 2 }
      (.inl ['1', '.', '2', '3', '4', '.', '5', '0']) = 123 / 100 ∧
    ¬ ((123 : ℚ) / 100 = 2469 / 2) := by
  have hround : round (1234.5 : ℚ) 2 = 2469 / 2 := by
    unfold round
    norm_num
  refine ⟨hround, ?_, ?_, by norm_num⟩
  · unfold projectedText
    rw [hround, jsToString_2469_half]
    simp only [Option.some_bind]
    decide
  · simp only [cleanValue]
    have hclean : cleanString
        { repeating := ['.', 'd', 'd', 'd'], radix := some '.', precision := 2 }
        ['1', '.', '2', '3', '4', '.', '5', '0'] =
        ['1', '.', '2', '3', '4', '5', '0'] := by decide
    rw [hclean]
    have hinput : ((if false then ['-'] else []) ++ digitChars [1] ++
        (if ([2, 3, 4, 5, 0] : List ℕ).isEmpty then []
          else '.' :: digitChars [2, 3, 4, 5, 0])) =
        ['1', '.', '2', '3', '4', '5', '0'] := by decide
    have hparse := jsParseFloat_canonical false [1] [2, 3, 4, 5, 0]
      (by decide) (by decide) (by decide)
    rw [hinput] at hparse
    rw [hparse]
    simp only [Option.getD_some]
    unfold round
    norm_num [digitsToNat]

/-- Witness for the amended C3: the default-style grouping format
`"(,ddd)"` (precision 0) satisfies the separator hypotheses, and the
round-trip holds for the value `1234.5`. -/
theorem format_roundtrip_normalizes_witness :
    ∃ s : List Char,
      projectedText { repeating := [',', 'd', 'd', 'd'] }
        (round (1234.5 : ℚ) 0) = some s ∧
      cleanValue { repeating := [',', 'd', 'd', 'd'] } (.inl s) =
        round (1234.5 : ℚ) 0 :=
  format_roundtrip_normalizes { repeating := [',', 'd', 'd', 'd'] } 1234.5
    (by decide) (by decide) (by decide) (by decide)

end Odo

